import Mathlib

/-!
# Verification of the bril-to-CFG construction (`src/rvsdg/cfg.rs`)

This file gives a shallow embedding of the CFG-construction pass of the
repository: the data model (`BlockName`, `BasicBlock`, `Branch`, `Cfg`),
the incremental builder (`CfgBuilder` with `new`, `get_index`,
`finish_block`, `set_pos`, `add_edge`, `build`) and the single-pass driver
(`to_cfg`, embedded as `toCfgStep` / `runCfg` / `to_cfg`).

Machine details of the source that the embedding mirrors:

* petgraph's `Graph` is embedded as a list of node weights plus a list of
  edges; `add_node` appends and returns the old length (petgraph node
  indices are allocated consecutively from 0), `add_edge` appends.
* The `HashMap<String, NodeIndex>` of the builder is embedded as an
  association list; `entry(..).or_insert_with(..)` is lookup-or-append.
* The `assert_eq!`/`panic!` calls of `to_cfg` and the
  `debug_assert!(instrs.is_empty())` of `finish_block` are embedded as
  `Except.error` outcomes with a dedicated error code each, and the
  `node_weight_mut(..).unwrap()` as the `invalidNode` error.  The indices
  passed to `set_pos` and `add_edge` are always in range (they come from
  `get_index`, from `current` or from the entry/exit nodes), so those two
  are embedded as total functions like in the source.
-/

namespace Bril

/-- Source position metadata (bril_rs `Position`), carried through opaquely. -/
structure Position where
  row : Nat
  col : Nat
deriving DecidableEq, Repr

/-- A literal value of a bril `const` instruction (bril_rs `Literal`). -/
inductive Literal where
  | int (i : Int)
  | bool (b : Bool)
deriving DecidableEq, Repr

/-- bril_rs `EffectOps`: the effect operations.  Only `branch`, `jump` and
`ret` are inspected by the CFG builder; the rest are opaque payload. -/
inductive EffectOps where
  | branch
  | jump
  | ret
  | call
  | print
  | nop
  | store
  | free
deriving DecidableEq, Repr

/-- bril_rs `Instruction`: constant, value operation, or effect operation. -/
inductive Instruction where
  | constant (dest : String) (value : Literal) (pos : Option Position)
  | value (args : List String) (dest : String) (funcs : List String)
      (op : String) (pos : Option Position)
  | effect (args : List String) (funcs : List String) (labels : List String)
      (op : EffectOps) (pos : Option Position)
deriving DecidableEq, Repr

/-- bril_rs `Code`: an item of a function body, either a label declaration or
an instruction. -/
inductive Code where
  | label (label : String) (pos : Option Position)
  | instruction (inst : Instruction)
deriving DecidableEq, Repr

/-- bril_rs `Argument`: a formal argument of a function. -/
structure Argument where
  name : String
  argType : String
deriving DecidableEq, Repr

/-- bril_rs `Function`: the parts of a bril function that `to_cfg` reads. -/
structure Function where
  name : String
  args : List Argument
  instrs : List Code
deriving DecidableEq, Repr

/-- Whether a `Code` item is a label declaration. -/
def Code.isLabel : Code → Bool
  | .label _ _ => true
  | .instruction _ => false

/-- Whether an instruction is a control transfer (branch, jump or return). -/
def Instruction.isTerm : Instruction → Bool
  | .effect _ _ _ .branch _ => true
  | .effect _ _ _ .jump _ => true
  | .effect _ _ _ .ret _ => true
  | _ => false

/-- Whether a `Code` item is a control transfer (branch, jump or return). -/
def Code.isTerm : Code → Bool
  | .label _ _ => false
  | .instruction i => i.isTerm

/-- A plain item: an instruction that is neither a label declaration nor a
control transfer.  These are copied verbatim into basic blocks. -/
def Code.isPlain (c : Code) : Bool := !c.isLabel && !c.isTerm

/-- The payload instruction of a plain `Code` item. -/
def Code.inst? : Code → Option Instruction
  | .label _ _ => none
  | .instruction i => some i

end Bril

/-- `BlockName` of `cfg.rs`: identity of a basic block. -/
inductive BlockName where
  | entry
  | exit
  | named (label : String)
deriving DecidableEq, Repr

/-- `BasicBlock` of `cfg.rs`: a CFG node. -/
structure BasicBlock where
  instrs : List Bril.Instruction
  name : BlockName
  pos : Option Bril.Position
deriving DecidableEq, Repr

/-- `BasicBlock::empty`. -/
def BasicBlock.empty (name : BlockName) : BasicBlock :=
  { instrs := [], name := name, pos := none }

/-- `BranchOp` of `cfg.rs`: the kind of a CFG edge. -/
inductive BranchOp where
  | jmp
  | cond (arg : String) (val : Bool)
  | retVal (arg : String)
deriving DecidableEq, Repr

/-- `Branch` of `cfg.rs`: the weight carried by a CFG edge. -/
structure Branch where
  op : BranchOp
  pos : Option Bril.Position
deriving DecidableEq, Repr

/-- A directed edge of the graph: petgraph stores source index, target index
and the edge weight. -/
structure Edge where
  src : Nat
  dst : Nat
  branch : Branch
deriving DecidableEq, Repr

/-- The petgraph `Graph<BasicBlock, Branch>`: node weights in allocation
order (indices are positions) and edges in insertion order. -/
structure Graph where
  nodes : List BasicBlock
  edges : List Edge
deriving DecidableEq, Repr

/-- `Cfg` of `cfg.rs`. -/
structure Cfg where
  args : List Bril.Argument
  graph : Graph
  entry : Nat
  exit : Nat
deriving DecidableEq, Repr

/-- The failure modes of `to_cfg`: the three `assert`/`panic` sites for
malformed control-transfer shapes, the `debug_assert` of `finish_block`, and
the `unwrap` of an invalid node index. -/
inductive CfgError where
  | invalidNode
  | commitNonEmpty
  | malformedBranch
  | malformedJump
  | malformedReturn
deriving DecidableEq, Repr

/-- `CfgBuilder` of `cfg.rs`. -/
structure CfgBuilder where
  cfg : Cfg
  label_to_block : List (String × Nat)
deriving DecidableEq, Repr

/-- `CfgBuilder::new`: a graph holding only the `Entry` node (index 0) and
the `Exit` node (index 1). -/
def CfgBuilder.new (func : Bril.Function) : CfgBuilder :=
  { cfg :=
      { args := func.args
        graph :=
          { nodes := [BasicBlock.empty BlockName.entry, BasicBlock.empty BlockName.exit]
            edges := [] }
        entry := 0
        exit := 1 }
    label_to_block := [] }

/-- `CfgBuilder::get_index`: return the node already interned for `label`,
or append a fresh empty `named label` node and record it. -/
def CfgBuilder.get_index (b : CfgBuilder) (label : String) : Nat × CfgBuilder :=
  match b.label_to_block.lookup label with
  | some i => (i, b)
  | none =>
    let i := b.cfg.graph.nodes.length
    (i,
      { b with
        cfg :=
          { b.cfg with
            graph :=
              { b.cfg.graph with
                nodes := b.cfg.graph.nodes ++ [BasicBlock.empty (BlockName.named label)] } }
        label_to_block := (label, i) :: b.label_to_block })

/-- `CfgBuilder::finish_block`: commit the accumulated instruction buffer to
node `index`.  The `unwrap` of an out-of-range index is `invalidNode`; the
`debug_assert!(instrs.is_empty())` is `commitNonEmpty`. -/
def CfgBuilder.finish_block (b : CfgBuilder) (index : Nat)
    (block : List Bril.Instruction) : Except CfgError CfgBuilder :=
  match b.cfg.graph.nodes[index]? with
  | none => .error .invalidNode
  | some blk =>
    if blk.instrs.isEmpty then
      .ok
        { b with
          cfg :=
            { b.cfg with
              graph :=
                { b.cfg.graph with
                  nodes := b.cfg.graph.nodes.set index { blk with instrs := block } } } }
    else .error .commitNonEmpty

/-- `CfgBuilder::set_pos`: record the position on node `index`.  The index is
always in range at the call sites, so this is embedded totally: an
out-of-range index leaves the builder unchanged. -/
def CfgBuilder.set_pos (b : CfgBuilder) (index : Nat)
    (pos : Option Bril.Position) : CfgBuilder :=
  match b.cfg.graph.nodes[index]? with
  | none => b
  | some blk =>
    { b with
      cfg :=
        { b.cfg with
          graph :=
            { b.cfg.graph with
              nodes := b.cfg.graph.nodes.set index { blk with pos := pos } } } }

/-- `CfgBuilder::add_edge`: append a directed edge. -/
def CfgBuilder.add_edge (b : CfgBuilder) (src dst : Nat) (branch : Branch) : CfgBuilder :=
  { b with
    cfg :=
      { b.cfg with
        graph := { b.cfg.graph with edges := b.cfg.graph.edges ++ [{ src, dst, branch }] } } }

/-- `CfgBuilder::build`: if the entry node has no outgoing edge, synthesize
one `Jmp` edge from entry to exit, then hand back the finished `Cfg`. -/
def CfgBuilder.build (b : CfgBuilder) : Cfg :=
  if b.cfg.graph.edges.any (fun e => e.src == b.cfg.entry) then b.cfg
  else
    { b.cfg with
      graph :=
        { b.cfg.graph with
          edges :=
            b.cfg.graph.edges ++
              [{ src := b.cfg.entry, dst := b.cfg.exit, branch := { op := .jmp, pos := none } }] } }

/-- The loop state of `to_cfg`: the builder plus the local variables
`block`, `current` and `had_branch` of the source. -/
structure DriveState where
  builder : CfgBuilder
  block : List Bril.Instruction
  current : Nat
  had_branch : Bool
deriving DecidableEq, Repr

/-- One iteration of the `for inst in &func.instrs` loop of `to_cfg`,
with the `match` arms in source order. -/
def toCfgStep (s : DriveState) (code : Bril.Code) : Except CfgError DriveState :=
  match code with
  | .label label pos =>
    let r := s.builder.get_index label
    match r.2.finish_block s.current s.block with
    | .error e => .error e
    | .ok b2 =>
      let b3 := b2.set_pos r.1 pos
      let b4 :=
        if !s.had_branch then b3.add_edge s.current r.1 { op := .jmp, pos := pos }
        else b3
      .ok { builder := b4, block := [], current := r.1, had_branch := false }
  | .instruction (.effect args _funcs labels .branch pos) =>
    match labels, args with
    | [tl, fl], [arg] =>
      let rt := s.builder.get_index tl
      let rf := rt.2.get_index fl
      let b3 := rf.2.add_edge s.current rt.1 { op := .cond arg true, pos := pos }
      let b4 := b3.add_edge s.current rf.1 { op := .cond arg false, pos := pos }
      .ok { s with builder := b4, had_branch := true }
    | _, _ => .error .malformedBranch
  | .instruction (.effect _args _funcs labels .jump pos) =>
    match labels with
    | [dest] =>
      let r := s.builder.get_index dest
      let b2 := r.2.add_edge s.current r.1 { op := .jmp, pos := pos }
      .ok { s with builder := b2, had_branch := true }
    | _ => .error .malformedJump
  | .instruction (.effect args _funcs _labels .ret pos) =>
    match args with
    | [] =>
      let b2 := s.builder.add_edge s.current s.builder.cfg.exit { op := .jmp, pos := pos }
      .ok { s with builder := b2, had_branch := true }
    | [arg] =>
      let b2 :=
        s.builder.add_edge s.current s.builder.cfg.exit { op := .retVal arg, pos := pos }
      .ok { s with builder := b2, had_branch := true }
    | _ => .error .malformedReturn
  | .instruction i => .ok { s with block := s.block ++ [i] }

/-- The `for` loop of `to_cfg`, with a failed assertion aborting the pass. -/
def runCfg : DriveState → List Bril.Code → Except CfgError DriveState
  | s, [] => .ok s
  | s, c :: rest =>
    match toCfgStep s c with
    | .error e => .error e
    | .ok s' => runCfg s' rest

/-- The loop state at the top of `to_cfg`. -/
def initState (func : Bril.Function) : DriveState :=
  { builder := CfgBuilder.new func
    block := []
    current := (CfgBuilder.new func).cfg.entry
    had_branch := false }

/-- `to_cfg` of `cfg.rs`: run the loop over the instruction stream, commit
the remaining buffer to the current block, and seal the graph. -/
def to_cfg (func : Bril.Function) : Except CfgError Cfg :=
  match runCfg (initState func) func.instrs with
  | .error e => .error e
  | .ok s =>
    match s.builder.finish_block s.current s.block with
    | .error e => .error e
    | .ok b => .ok b.build

/-! ## Observations used to state the claims -/

/-- The names of the graph's nodes, in allocation order. -/
def nodeNames (g : Graph) : List BlockName := g.nodes.map (·.name)

/-- The name of node `i`, when in range. -/
def nodeName? (g : Graph) (i : Nat) : Option BlockName := (nodeNames g)[i]?

/-- The instruction list of node `i`, when in range. -/
def instrsAt (g : Graph) (i : Nat) : Option (List Bril.Instruction) :=
  (g.nodes[i]?).map (·.instrs)

/-- The labels declared by a code stream, in order. -/
def labelsOf (l : List Bril.Code) : List String :=
  l.filterMap fun c =>
    match c with
    | .label lab _ => some lab
    | .instruction _ => none

/-- The payload of the plain items of a code stream, in order. -/
def plainsOf (l : List Bril.Code) : List Bril.Instruction :=
  l.filterMap Bril.Code.inst?

/-- A malformed control-transfer shape: a conditional branch without exactly
two labels and one argument, a jump without exactly one label, or a return
with more than one argument. -/
def malformedShape : Bril.Code → Bool
  | .instruction (.effect args _ labels .branch _) =>
    !(labels.length == 2 && args.length == 1)
  | .instruction (.effect _ _ labels .jump _) => !(labels.length == 1)
  | .instruction (.effect args _ _ .ret _) => decide (2 ≤ args.length)
  | _ => false

/-- The `BranchOp` each return instruction of the stream contributes, in
stream order: `jmp` for a bare return, `retVal arg` for a return carrying
`arg` (a malformed return would abort `to_cfg`, so its value is moot). -/
def retOpsOf (l : List Bril.Code) : List BranchOp :=
  l.filterMap fun c =>
    match c with
    | .instruction (.effect args _ _ .ret _) =>
      some (match args with
        | [arg] => BranchOp.retVal arg
        | _ => BranchOp.jmp)
    | _ => none

/-- The operations of the edges whose target is the exit node, in insertion
order. -/
def exitOps (cfg : Cfg) : List BranchOp :=
  (cfg.graph.edges.filter fun e => e.dst == cfg.exit).map (·.branch.op)

/-- Whether an edge is a conditional edge. -/
def Edge.isCond (e : Edge) : Bool :=
  match e.branch.op with
  | .cond _ _ => true
  | _ => false

/-- The conditional edges of an edge list, in insertion order. -/
def condEdges (es : List Edge) : List Edge := es.filter Edge.isCond

/-- `(arg, true-label, false-label)` of each well-formed conditional branch
of the stream, in order. -/
def branchSpecsOf (l : List Bril.Code) : List (String × String × String) :=
  l.filterMap fun c =>
    match c with
    | .instruction (.effect args _ labels .branch _) =>
      match labels, args with
      | [tl, fl], [arg] => some (arg, tl, fl)
      | _, _ => none
    | _ => none

/-- The consecutive pairing of conditional edges against the conditional
branch instructions of the source: each branch contributes exactly two
consecutive edges from one source node, `val := true` to the node of its
first label and `val := false` to the node of its second label, both guarded
by its argument. -/
def condPairsMatch (ns : List BasicBlock) : List Edge → List (String × String × String) → Prop
  | [], [] => True
  | e1 :: e2 :: es, (arg, tl, fl) :: bs =>
    e1.src = e2.src ∧
    e1.branch.op = .cond arg true ∧
    e2.branch.op = .cond arg false ∧
    ((ns.map (·.name))[e1.dst]? = some (.named tl)) ∧
    ((ns.map (·.name))[e2.dst]? = some (.named fl)) ∧
    condPairsMatch ns es bs
  | _, _ => False

/-- The segment of the stream after its last label declaration (the whole
stream when it declares no label). -/
def sinceLastLabel (l : List Bril.Code) : List Bril.Code :=
  (l.reverse.takeWhile fun c => !c.isLabel).reverse

/-! ## Basic list and name lemmas -/

theorem list_set_self {α : Type _} {l : List α} {i : Nat} {a : α} (h : l[i]? = some a) :
    l.set i a = l := by
  induction l generalizing i with
  | nil => simp at h
  | cons x xs ih =>
    cases i with
    | zero => simp_all
    | succ n =>
      simp only [List.getElem?_cons_succ] at h
      simp [List.set, ih h]

theorem nodeName?_lt {g : Graph} {i : Nat} {bn : BlockName}
    (h : nodeName? g i = some bn) : i < g.nodes.length := by
  by_contra hc
  have : (nodeNames g)[i]? = none := by
    apply List.getElem?_eq_none
    simpa [nodeNames] using Nat.le_of_not_lt hc
  simp [nodeName?, this] at h

theorem instrsAt_lt {g : Graph} {i : Nat} {v : List Bril.Instruction}
    (h : instrsAt g i = some v) : i < g.nodes.length := by
  by_contra hc
  have : g.nodes[i]? = none := List.getElem?_eq_none (Nat.le_of_not_lt hc)
  simp [instrsAt, this] at h

theorem nodeName?_eq_node {g : Graph} {i : Nat} :
    nodeName? g i = (g.nodes[i]?).map (·.name) := by
  simp [nodeName?, nodeNames, List.getElem?_map]

/-- Monotone evolution of a graph's node names: nodes are only appended and
never renamed. -/
def namesMono (g g' : Graph) : Prop :=
  g.nodes.length ≤ g'.nodes.length ∧
  ∀ i, i < g.nodes.length → nodeName? g' i = nodeName? g i

theorem namesMono_refl (g : Graph) : namesMono g g :=
  ⟨Nat.le_refl _, fun _ _ => rfl⟩

theorem namesMono_trans {g₁ g₂ g₃ : Graph} (h₁ : namesMono g₁ g₂) (h₂ : namesMono g₂ g₃) :
    namesMono g₁ g₃ :=
  ⟨Nat.le_trans h₁.1 h₂.1, fun i hi => by
    rw [h₂.2 i (Nat.lt_of_lt_of_le hi h₁.1), h₁.2 i hi]⟩

theorem namesMono_of_names_eq {g g' : Graph}
    (hlen : g'.nodes.length = g.nodes.length)
    (h : nodeNames g' = nodeNames g) : namesMono g g' :=
  ⟨Nat.le_of_eq hlen.symm, fun i _ => by simp [nodeName?, h]⟩

theorem namesMono_name {g g' : Graph} {i : Nat} {bn : BlockName}
    (hm : namesMono g g') (h : nodeName? g i = some bn) : nodeName? g' i = some bn := by
  rw [hm.2 i (nodeName?_lt h)]; exact h

/-! ## The effect of each builder operation -/

theorem get_index_of_lookup {b : CfgBuilder} {l : String} {i : Nat}
    (h : b.label_to_block.lookup l = some i) : b.get_index l = (i, b) := by
  simp [CfgBuilder.get_index, h]

theorem get_index_of_fresh {b : CfgBuilder} {l : String}
    (h : b.label_to_block.lookup l = none) :
    b.get_index l =
      (b.cfg.graph.nodes.length,
        { b with
          cfg :=
            { b.cfg with
              graph :=
                { b.cfg.graph with
                  nodes := b.cfg.graph.nodes ++ [BasicBlock.empty (BlockName.named l)] } }
          label_to_block := (l, b.cfg.graph.nodes.length) :: b.label_to_block }) := by
  simp [CfgBuilder.get_index, h]

theorem get_index_entry (b : CfgBuilder) (l : String) :
    ((b.get_index l).2).cfg.entry = b.cfg.entry := by
  cases h : b.label_to_block.lookup l with
  | none => rw [get_index_of_fresh h]
  | some i => rw [get_index_of_lookup h]

theorem get_index_exit (b : CfgBuilder) (l : String) :
    ((b.get_index l).2).cfg.exit = b.cfg.exit := by
  cases h : b.label_to_block.lookup l with
  | none => rw [get_index_of_fresh h]
  | some i => rw [get_index_of_lookup h]

theorem get_index_args (b : CfgBuilder) (l : String) :
    ((b.get_index l).2).cfg.args = b.cfg.args := by
  cases h : b.label_to_block.lookup l with
  | none => rw [get_index_of_fresh h]
  | some i => rw [get_index_of_lookup h]

theorem get_index_edges (b : CfgBuilder) (l : String) :
    ((b.get_index l).2).cfg.graph.edges = b.cfg.graph.edges := by
  cases h : b.label_to_block.lookup l with
  | none => rw [get_index_of_fresh h]
  | some i => rw [get_index_of_lookup h]

theorem nodeNames_append (g : Graph) (bs : List BasicBlock) :
    nodeNames { g with nodes := g.nodes ++ bs } = nodeNames g ++ bs.map (·.name) := by
  simp [nodeNames]

theorem get_index_namesMono (b : CfgBuilder) (l : String) :
    namesMono b.cfg.graph ((b.get_index l).2).cfg.graph := by
  cases h : b.label_to_block.lookup l with
  | none =>
    rw [get_index_of_fresh h]
    refine ⟨by simp, fun i hi => ?_⟩
    simp only [nodeName?, nodeNames, List.map_append]
    rw [List.getElem?_append]
    simp [hi]
  | some i => rw [get_index_of_lookup h]; exact namesMono_refl _

theorem get_index_instrsAt (b : CfgBuilder) (l : String) {i : Nat}
    (hi : i < b.cfg.graph.nodes.length) :
    instrsAt ((b.get_index l).2).cfg.graph i = instrsAt b.cfg.graph i := by
  cases h : b.label_to_block.lookup l with
  | none =>
    rw [get_index_of_fresh h]
    simp only [instrsAt]
    rw [List.getElem?_append]
    simp [hi]
  | some j => rw [get_index_of_lookup h]

/-! ## The structural invariant of the builder -/

/-- Invariant of `CfgBuilder` maintained throughout construction: entry is
node 0, exit is node 1, every further node carries a `named` label, and the
label map is a sound and complete index of the `named` nodes. -/
structure BInv (b : CfgBuilder) : Prop where
  entry_eq : b.cfg.entry = 0
  exit_eq : b.cfg.exit = 1
  name_entry : nodeName? b.cfg.graph 0 = some BlockName.entry
  name_exit : nodeName? b.cfg.graph 1 = some BlockName.exit
  named_ge2 : ∀ i bn, nodeName? b.cfg.graph i = some bn → 2 ≤ i → ∃ l, bn = BlockName.named l
  lm_sound : ∀ l i, b.label_to_block.lookup l = some i →
    2 ≤ i ∧ i < b.cfg.graph.nodes.length ∧ nodeName? b.cfg.graph i = some (BlockName.named l)
  lm_complete : ∀ i l, nodeName? b.cfg.graph i = some (BlockName.named l) →
    b.label_to_block.lookup l = some i

theorem BInv.len2 {b : CfgBuilder} (hb : BInv b) : 2 ≤ b.cfg.graph.nodes.length :=
  nodeName?_lt hb.name_exit

theorem BInv_new (func : Bril.Function) : BInv (CfgBuilder.new func) := by
  refine ⟨rfl, rfl, rfl, rfl, ?_, ?_, ?_⟩
  · intro i bn h h2
    rcases i with _ | _ | i
    · omega
    · omega
    · simp [nodeName?, nodeNames, CfgBuilder.new] at h
  · intro l i h
    simp [CfgBuilder.new] at h
  · intro i l h
    rcases i with _ | _ | i <;>
      simp [nodeName?, nodeNames, CfgBuilder.new, BasicBlock.empty] at h

theorem get_index_spec {b : CfgBuilder} (l : String) (hb : BInv b) :
    BInv (b.get_index l).2 ∧
    2 ≤ (b.get_index l).1 ∧
    (b.get_index l).1 < ((b.get_index l).2).cfg.graph.nodes.length ∧
    nodeName? ((b.get_index l).2).cfg.graph (b.get_index l).1 = some (BlockName.named l) ∧
    ((b.get_index l).2).label_to_block.lookup l = some (b.get_index l).1 := by
  cases h : b.label_to_block.lookup l with
  | some i =>
    rw [get_index_of_lookup h]
    obtain ⟨h2, hlt, hname⟩ := hb.lm_sound l i h
    exact ⟨hb, h2, hlt, hname, h⟩
  | none =>
    rw [get_index_of_fresh h]
    have hlen := hb.len2
    have hnames :
        nodeNames { b.cfg.graph with nodes := b.cfg.graph.nodes ++ [BasicBlock.empty (BlockName.named l)] } =
          nodeNames b.cfg.graph ++ [BlockName.named l] := by
      simp [nodeNames, BasicBlock.empty]
    have hlensum : (nodeNames b.cfg.graph).length = b.cfg.graph.nodes.length := by
      simp [nodeNames]
    have hgetlt : ∀ i, i < b.cfg.graph.nodes.length →
        (nodeNames b.cfg.graph ++ [BlockName.named l])[i]? = nodeName? b.cfg.graph i := by
      intro i hi
      rw [List.getElem?_append]
      simp [nodeName?, hlensum, hi]
    have hgetlen :
        (nodeNames b.cfg.graph ++ [BlockName.named l])[b.cfg.graph.nodes.length]? =
          some (BlockName.named l) := by
      rw [show b.cfg.graph.nodes.length = (nodeNames b.cfg.graph).length from hlensum.symm]
      exact List.getElem?_concat_length _ _
    constructor
    · refine ⟨hb.entry_eq, hb.exit_eq, ?_, ?_, ?_, ?_, ?_⟩
      · show (nodeNames _)[0]? = _
        rw [hnames, hgetlt 0 (by omega)]
        exact hb.name_entry
      · show (nodeNames _)[1]? = _
        rw [hnames, hgetlt 1 (by omega)]
        exact hb.name_exit
      · intro i bn hbn h2
        simp only [nodeName?, hnames] at hbn
        rcases Nat.lt_trichotomy i b.cfg.graph.nodes.length with hlt | heq | hgt
        · rw [hgetlt i hlt] at hbn
          exact hb.named_ge2 i bn hbn h2
        · subst heq
          rw [hgetlen] at hbn
          injection hbn with hbn
          exact ⟨l, hbn.symm⟩
        · exfalso
          rw [List.getElem?_eq_none (by simp [hlensum]; omega)] at hbn
          exact Option.noConfusion hbn
      · intro l' i hl'
        rw [List.lookup_cons] at hl'
        rcases hbeq : l' == l with _ | _
        · simp only [hbeq] at hl'
          obtain ⟨h2, hlt, hname⟩ := hb.lm_sound l' i hl'
          refine ⟨h2, by simp; omega, ?_⟩
          show (nodeNames _)[i]? = _
          rw [hnames, hgetlt i hlt]
          exact hname
        · simp only [hbeq] at hl'
          injection hl' with hl'
          subst hl'
          have : l' = l := by simpa using hbeq
          subst this
          refine ⟨hlen, by simp, ?_⟩
          show (nodeNames _)[b.cfg.graph.nodes.length]? = _
          rw [hnames, hgetlen]
      · intro i l' hl'
        simp only [nodeName?, hnames] at hl'
        rw [List.lookup_cons]
        rcases Nat.lt_trichotomy i b.cfg.graph.nodes.length with hlt | heq | hgt
        · rw [hgetlt i hlt] at hl'
          have hold := hb.lm_complete i l' hl'
          rcases hbeq : l' == l with _ | _
          · simp [hbeq, hold]
          · exfalso
            have : l' = l := by simpa using hbeq
            subst this
            rw [hold] at h
            exact Option.noConfusion h
        · subst heq
          rw [hgetlen] at hl'
          injection hl' with hl'
          have : l' = l := by injection hl'.symm
          subst this
          simp
        · exfalso
          rw [List.getElem?_eq_none (by simp [hlensum]; omega)] at hl'
          exact Option.noConfusion hl'
    · refine ⟨hlen, by simp, ?_, by simp⟩
      show (nodeNames _)[b.cfg.graph.nodes.length]? = _
      rw [hnames, hgetlen]

theorem finish_block_ok_spec {b b' : CfgBuilder} {i : Nat} {v : List Bril.Instruction}
    (h : b.finish_block i v = .ok b') :
    instrsAt b.cfg.graph i = some [] ∧
    b'.cfg.entry = b.cfg.entry ∧ b'.cfg.exit = b.cfg.exit ∧ b'.cfg.args = b.cfg.args ∧
    b'.cfg.graph.edges = b.cfg.graph.edges ∧
    b'.label_to_block = b.label_to_block ∧
    b'.cfg.graph.nodes.length = b.cfg.graph.nodes.length ∧
    nodeNames b'.cfg.graph = nodeNames b.cfg.graph ∧
    instrsAt b'.cfg.graph i = some v ∧
    (∀ k, k ≠ i → instrsAt b'.cfg.graph k = instrsAt b.cfg.graph k) := by
  unfold CfgBuilder.finish_block at h
  split at h
  · exact absurd h (by simp)
  · rename_i blk hn
    split at h
    case isFalse => exact absurd h (by simp)
    case isTrue he =>
      injection h with h
      subst h
      have hempty : blk.instrs = [] := by simpa using he
      have hlt : i < b.cfg.graph.nodes.length := by
        have := List.getElem?_eq_some_iff.mp hn
        exact this.choose
      refine ⟨by simp [instrsAt, hn, hempty], rfl, rfl, rfl, rfl, rfl, by simp, ?_, ?_, ?_⟩
      · show nodeNames { b.cfg.graph with
          nodes := b.cfg.graph.nodes.set i { blk with instrs := v } } = nodeNames b.cfg.graph
        simp only [nodeNames, List.map_set]
        exact list_set_self (by simp [List.getElem?_map, hn])
      · simp [instrsAt, List.getElem?_set_self hlt]
      · intro k hk
        simp [instrsAt, List.getElem?_set_ne (fun hik => hk hik.symm)]

theorem finish_block_ok_of_empty {b : CfgBuilder} {i : Nat} (v : List Bril.Instruction)
    (h : instrsAt b.cfg.graph i = some []) :
    ∃ b', b.finish_block i v = .ok b' := by
  unfold instrsAt at h
  cases hn : b.cfg.graph.nodes[i]? with
  | none => rw [hn] at h; exact absurd h (by simp)
  | some blk =>
    rw [hn] at h
    have hempty : blk.instrs = [] := by simpa using h
    unfold CfgBuilder.finish_block
    rw [hn]
    simp [hempty]

theorem finish_block_err_spec {b : CfgBuilder} {i : Nat} {v : List Bril.Instruction} {e : CfgError}
    (h : b.finish_block i v = .error e) :
    (e = .invalidNode ∧ b.cfg.graph.nodes[i]? = none) ∨
    (e = .commitNonEmpty ∧ ∃ w, instrsAt b.cfg.graph i = some w ∧ w ≠ []) := by
  unfold CfgBuilder.finish_block at h
  split at h
  · rename_i hn
    injection h with h
    exact Or.inl ⟨h.symm, hn⟩
  · rename_i blk hn
    split at h
    case isTrue he => exact absurd h (by simp)
    case isFalse he =>
      injection h with h
      refine Or.inr ⟨h.symm, blk.instrs, by simp [instrsAt, hn], by simpa using he⟩

theorem set_pos_spec (b : CfgBuilder) (i : Nat) (pos : Option Bril.Position) :
    (b.set_pos i pos).cfg.entry = b.cfg.entry ∧
    (b.set_pos i pos).cfg.exit = b.cfg.exit ∧
    (b.set_pos i pos).cfg.args = b.cfg.args ∧
    (b.set_pos i pos).cfg.graph.edges = b.cfg.graph.edges ∧
    (b.set_pos i pos).label_to_block = b.label_to_block ∧
    (b.set_pos i pos).cfg.graph.nodes.length = b.cfg.graph.nodes.length ∧
    nodeNames (b.set_pos i pos).cfg.graph = nodeNames b.cfg.graph ∧
    (∀ k, instrsAt (b.set_pos i pos).cfg.graph k = instrsAt b.cfg.graph k) := by
  unfold CfgBuilder.set_pos
  cases hn : b.cfg.graph.nodes[i]? with
  | none => exact ⟨rfl, rfl, rfl, rfl, rfl, rfl, rfl, fun _ => rfl⟩
  | some blk =>
    have hlt : i < b.cfg.graph.nodes.length := by
      have := List.getElem?_eq_some_iff.mp hn
      exact this.choose
    refine ⟨rfl, rfl, rfl, rfl, rfl, by simp, ?_, ?_⟩
    · show nodeNames { b.cfg.graph with
        nodes := b.cfg.graph.nodes.set i { blk with pos := pos } } = nodeNames b.cfg.graph
      simp only [nodeNames, List.map_set]
      exact list_set_self (by simp [List.getElem?_map, hn])
    · intro k
      by_cases hk : k = i
      · subst hk
        simp [instrsAt, List.getElem?_set_self hlt, hn]
      · simp [instrsAt, List.getElem?_set_ne (fun hik => hk hik.symm)]

theorem add_edge_spec (b : CfgBuilder) (src dst : Nat) (br : Branch) :
    (b.add_edge src dst br).cfg.entry = b.cfg.entry ∧
    (b.add_edge src dst br).cfg.exit = b.cfg.exit ∧
    (b.add_edge src dst br).cfg.args = b.cfg.args ∧
    (b.add_edge src dst br).cfg.graph.nodes = b.cfg.graph.nodes ∧
    (b.add_edge src dst br).label_to_block = b.label_to_block ∧
    (b.add_edge src dst br).cfg.graph.edges =
      b.cfg.graph.edges ++ [{ src := src, dst := dst, branch := br }] :=
  ⟨rfl, rfl, rfl, rfl, rfl, rfl⟩

/-- A builder whose graph has the same names (pointwise), the same label map
and the same entry/exit indices satisfies `BInv` whenever the original did. -/
theorem BInv_transfer {b b' : CfgBuilder} (hb : BInv b)
    (hentry : b'.cfg.entry = b.cfg.entry) (hexit : b'.cfg.exit = b.cfg.exit)
    (hlen : b'.cfg.graph.nodes.length = b.cfg.graph.nodes.length)
    (hnames : nodeNames b'.cfg.graph = nodeNames b.cfg.graph)
    (hlm : b'.label_to_block = b.label_to_block) : BInv b' := by
  have hname : ∀ i, nodeName? b'.cfg.graph i = nodeName? b.cfg.graph i := by
    intro i; simp [nodeName?, hnames]
  refine ⟨hentry.trans hb.entry_eq, hexit.trans hb.exit_eq, ?_, ?_, ?_, ?_, ?_⟩
  · rw [hname]; exact hb.name_entry
  · rw [hname]; exact hb.name_exit
  · intro i bn h h2; rw [hname] at h; exact hb.named_ge2 i bn h h2
  · intro l i h
    rw [hlm] at h
    obtain ⟨h2, hlt, hn⟩ := hb.lm_sound l i h
    exact ⟨h2, by omega, by rw [hname]; exact hn⟩
  · intro i l h
    rw [hname] at h
    rw [hlm]
    exact hb.lm_complete i l h

theorem BInv_finish_block {b b' : CfgBuilder} {i : Nat} {v : List Bril.Instruction}
    (hb : BInv b) (h : b.finish_block i v = .ok b') : BInv b' := by
  obtain ⟨-, he, hx, -, -, hlm, hlen, hnames, -, -⟩ := finish_block_ok_spec h
  exact BInv_transfer hb he hx hlen hnames hlm

theorem BInv_set_pos {b : CfgBuilder} (i : Nat) (pos : Option Bril.Position)
    (hb : BInv b) : BInv (b.set_pos i pos) := by
  obtain ⟨he, hx, -, -, hlm, hlen, hnames, -⟩ := set_pos_spec b i pos
  exact BInv_transfer hb he hx hlen hnames hlm

theorem BInv_add_edge {b : CfgBuilder} (src dst : Nat) (br : Branch)
    (hb : BInv b) : BInv (b.add_edge src dst br) :=
  BInv_transfer hb rfl rfl rfl rfl rfl

/-! ## The effect of one driver step -/

theorem step_label_eq (s : DriveState) (L : String) (pos : Option Bril.Position) :
    toCfgStep s (.label L pos) =
      match ((s.builder.get_index L).2).finish_block s.current s.block with
      | .error e => .error e
      | .ok b2 =>
        .ok
          { builder :=
              if !s.had_branch then
                (b2.set_pos (s.builder.get_index L).1 pos).add_edge s.current
                  (s.builder.get_index L).1 { op := .jmp, pos := pos }
              else b2.set_pos (s.builder.get_index L).1 pos
            block := []
            current := (s.builder.get_index L).1
            had_branch := false } := rfl

theorem step_branch_eq (s : DriveState) (arg : String) (funcs : List String)
    (tl fl : String) (pos : Option Bril.Position) :
    toCfgStep s (.instruction (.effect [arg] funcs [tl, fl] .branch pos)) =
      .ok
        { s with
          builder :=
            (((s.builder.get_index tl).2.get_index fl).2.add_edge s.current
                (s.builder.get_index tl).1 { op := .cond arg true, pos := pos }).add_edge
              s.current ((s.builder.get_index tl).2.get_index fl).1
              { op := .cond arg false, pos := pos }
          had_branch := true } := rfl

theorem step_jump_eq (s : DriveState) (args funcs : List String) (dest : String)
    (pos : Option Bril.Position) :
    toCfgStep s (.instruction (.effect args funcs [dest] .jump pos)) =
      .ok
        { s with
          builder :=
            ((s.builder.get_index dest).2).add_edge s.current (s.builder.get_index dest).1
              { op := .jmp, pos := pos }
          had_branch := true } := rfl

theorem step_ret0_eq (s : DriveState) (funcs labels : List String)
    (pos : Option Bril.Position) :
    toCfgStep s (.instruction (.effect [] funcs labels .ret pos)) =
      .ok
        { s with
          builder :=
            s.builder.add_edge s.current s.builder.cfg.exit { op := .jmp, pos := pos }
          had_branch := true } := rfl

theorem step_ret1_eq (s : DriveState) (arg : String) (funcs labels : List String)
    (pos : Option Bril.Position) :
    toCfgStep s (.instruction (.effect [arg] funcs labels .ret pos)) =
      .ok
        { s with
          builder :=
            s.builder.add_edge s.current s.builder.cfg.exit { op := .retVal arg, pos := pos }
          had_branch := true } := rfl

theorem step_plain_eq (s : DriveState) {i : Bril.Instruction} (h : i.isTerm = false) :
    toCfgStep s (.instruction i) = .ok { s with block := s.block ++ [i] } := by
  cases i with
  | constant => rfl
  | value => rfl
  | effect args funcs labels op pos =>
    cases op <;> simp [Bril.Instruction.isTerm] at h <;> rfl

/-- Every code item is a label, a well-formed branch/jump/return, a plain
instruction, or malformed; in the last case the step aborts with the
matching error. -/
theorem toCfgStep_shape (s : DriveState) (c : Bril.Code) :
    ((∃ L pos, c = .label L pos) ∧ malformedShape c = false) ∨
    ((∃ arg funcs tl fl pos, c = .instruction (.effect [arg] funcs [tl, fl] .branch pos)) ∧
      malformedShape c = false) ∨
    ((∃ args funcs dest pos, c = .instruction (.effect args funcs [dest] .jump pos)) ∧
      malformedShape c = false) ∨
    ((∃ funcs labels pos, c = .instruction (.effect [] funcs labels .ret pos)) ∧
      malformedShape c = false) ∨
    ((∃ arg funcs labels pos, c = .instruction (.effect [arg] funcs labels .ret pos)) ∧
      malformedShape c = false) ∨
    ((∃ i, c = .instruction i ∧ i.isTerm = false) ∧ malformedShape c = false) ∨
    (malformedShape c = true ∧
      ∃ e, toCfgStep s c = .error e ∧
        (e = .malformedBranch ∨ e = .malformedJump ∨ e = .malformedReturn)) := by
  cases c with
  | label L pos => exact Or.inl ⟨⟨L, pos, rfl⟩, rfl⟩
  | instruction i =>
    cases i with
    | constant dest v pos =>
      refine Or.inr (Or.inr (Or.inr (Or.inr (Or.inr (Or.inl ⟨⟨_, rfl, rfl⟩, rfl⟩)))))
    | value args dest funcs op pos =>
      refine Or.inr (Or.inr (Or.inr (Or.inr (Or.inr (Or.inl ⟨⟨_, rfl, rfl⟩, rfl⟩)))))
    | effect args funcs labels op pos =>
      cases op with
      | branch =>
        rcases labels with _ | ⟨tl, _ | ⟨fl, _ | ⟨l3, ls⟩⟩⟩ <;>
          rcases args with _ | ⟨a1, _ | ⟨a2, as⟩⟩ <;>
            first
              | exact Or.inr (Or.inl ⟨⟨a1, funcs, tl, fl, pos, rfl⟩, by simp [malformedShape]⟩)
              | exact Or.inr (Or.inr (Or.inr (Or.inr (Or.inr (Or.inr
                  ⟨by simp [malformedShape], .malformedBranch, by simp [toCfgStep], Or.inl rfl⟩)))))
      | jump =>
        rcases labels with _ | ⟨dest, _ | ⟨l2, ls⟩⟩ <;>
          first
            | exact Or.inr (Or.inr (Or.inl ⟨⟨args, funcs, dest, pos, rfl⟩, by simp [malformedShape]⟩))
            | exact Or.inr (Or.inr (Or.inr (Or.inr (Or.inr (Or.inr
                ⟨by simp [malformedShape], .malformedJump, by simp [toCfgStep], Or.inr (Or.inl rfl)⟩)))))
      | ret =>
        rcases args with _ | ⟨a1, _ | ⟨a2, as⟩⟩
        · exact Or.inr (Or.inr (Or.inr (Or.inl ⟨⟨funcs, labels, pos, rfl⟩, by simp [malformedShape]⟩)))
        · exact Or.inr (Or.inr (Or.inr (Or.inr (Or.inl
            ⟨⟨a1, funcs, labels, pos, rfl⟩, by simp [malformedShape]⟩))))
        · exact Or.inr (Or.inr (Or.inr (Or.inr (Or.inr (Or.inr
            ⟨by simp [malformedShape], .malformedReturn, by simp [toCfgStep], Or.inr (Or.inr rfl)⟩)))))
      | call =>
        exact Or.inr (Or.inr (Or.inr (Or.inr (Or.inr (Or.inl
          ⟨⟨_, rfl, rfl⟩, by simp [malformedShape]⟩)))))
      | print =>
        exact Or.inr (Or.inr (Or.inr (Or.inr (Or.inr (Or.inl
          ⟨⟨_, rfl, rfl⟩, by simp [malformedShape]⟩)))))
      | nop =>
        exact Or.inr (Or.inr (Or.inr (Or.inr (Or.inr (Or.inl
          ⟨⟨_, rfl, rfl⟩, by simp [malformedShape]⟩)))))
      | store =>
        exact Or.inr (Or.inr (Or.inr (Or.inr (Or.inr (Or.inl
          ⟨⟨_, rfl, rfl⟩, by simp [malformedShape]⟩)))))
      | free =>
        exact Or.inr (Or.inr (Or.inr (Or.inr (Or.inr (Or.inl
          ⟨⟨_, rfl, rfl⟩, by simp [malformedShape]⟩)))))

theorem toCfgStep_DInv {s s' : DriveState} {c : Bril.Code}
    (hb : BInv s.builder) (hcur : s.current < s.builder.cfg.graph.nodes.length)
    (h : toCfgStep s c = .ok s') :
    BInv s'.builder ∧ s'.current < s'.builder.cfg.graph.nodes.length ∧
    namesMono s.builder.cfg.graph s'.builder.cfg.graph := by
  rcases toCfgStep_shape s c with
    ⟨⟨L, pos, rfl⟩, -⟩ | ⟨⟨arg, funcs, tl, fl, pos, rfl⟩, -⟩ |
    ⟨⟨args, funcs, dest, pos, rfl⟩, -⟩ | ⟨⟨funcs, labels, pos, rfl⟩, -⟩ |
    ⟨⟨arg, funcs, labels, pos, rfl⟩, -⟩ | ⟨⟨i, rfl, hterm⟩, -⟩ | ⟨-, e, herr, -⟩
  · rw [step_label_eq] at h
    split at h
    · exact absurd h (by simp)
    · rename_i b2 hf
      injection h with h
      subst h
      obtain ⟨hbi1, hj2, hjlt, hjname, -⟩ := get_index_spec L hb
      have hmono1 := get_index_namesMono s.builder L
      obtain ⟨-, -, -, -, -, -, hlen2, hnames2, -, -⟩ := finish_block_ok_spec hf
      have hbi2 : BInv b2 := BInv_finish_block hbi1 hf
      obtain ⟨-, -, -, -, -, slen, snames, -⟩ :=
        set_pos_spec b2 (s.builder.get_index L).1 pos
      have hbi3 : BInv (b2.set_pos (s.builder.get_index L).1 pos) :=
        BInv_set_pos _ _ hbi2
      have h4 :
          BInv (if !s.had_branch then
              (b2.set_pos (s.builder.get_index L).1 pos).add_edge s.current
                (s.builder.get_index L).1 { op := .jmp, pos := pos }
            else b2.set_pos (s.builder.get_index L).1 pos) ∧
          (if !s.had_branch then
              (b2.set_pos (s.builder.get_index L).1 pos).add_edge s.current
                (s.builder.get_index L).1 { op := .jmp, pos := pos }
            else b2.set_pos (s.builder.get_index L).1 pos).cfg.graph.nodes =
            (b2.set_pos (s.builder.get_index L).1 pos).cfg.graph.nodes := by
        by_cases hbr : (!s.had_branch) = true
        · simp only [if_pos hbr]
          exact ⟨BInv_add_edge _ _ _ hbi3, rfl⟩
        · simp only [if_neg hbr]
          exact ⟨hbi3, trivial⟩
      refine ⟨h4.1, ?_, ?_⟩
      · show (s.builder.get_index L).1 < _
        rw [h4.2, slen, hlen2]
        exact hjlt
      · have m2 : namesMono ((s.builder.get_index L).2).cfg.graph b2.cfg.graph :=
          namesMono_of_names_eq hlen2 hnames2
        have m3 : namesMono b2.cfg.graph (b2.set_pos (s.builder.get_index L).1 pos).cfg.graph :=
          namesMono_of_names_eq slen snames
        have m4 : namesMono (b2.set_pos (s.builder.get_index L).1 pos).cfg.graph
            (if !s.had_branch then
                (b2.set_pos (s.builder.get_index L).1 pos).add_edge s.current
                  (s.builder.get_index L).1 { op := .jmp, pos := pos }
              else b2.set_pos (s.builder.get_index L).1 pos).cfg.graph := by
          refine namesMono_of_names_eq ?_ ?_
          · rw [h4.2]
          · simp only [nodeNames]
            rw [h4.2]
        exact namesMono_trans hmono1 (namesMono_trans m2 (namesMono_trans m3 m4))
  · rw [step_branch_eq] at h
    injection h with h
    subst h
    obtain ⟨hbi1, -, -, -, -⟩ := get_index_spec tl hb
    obtain ⟨hbi2, -, -, -, -⟩ := get_index_spec fl hbi1
    have m1 := get_index_namesMono s.builder tl
    have m2 := get_index_namesMono (s.builder.get_index tl).2 fl
    refine ⟨BInv_add_edge _ _ _ (BInv_add_edge _ _ _ hbi2), ?_, ?_⟩
    · show s.current < _
      have := namesMono_trans m1 m2
      exact Nat.lt_of_lt_of_le hcur this.1
    · exact namesMono_trans m1 m2
  · rw [step_jump_eq] at h
    injection h with h
    subst h
    obtain ⟨hbi1, -, -, -, -⟩ := get_index_spec dest hb
    have m1 := get_index_namesMono s.builder dest
    refine ⟨BInv_add_edge _ _ _ hbi1, ?_, m1⟩
    show s.current < _
    exact Nat.lt_of_lt_of_le hcur m1.1
  · rw [step_ret0_eq] at h
    injection h with h
    subst h
    exact ⟨BInv_add_edge _ _ _ hb, hcur, namesMono_refl _⟩
  · rw [step_ret1_eq] at h
    injection h with h
    subst h
    exact ⟨BInv_add_edge _ _ _ hb, hcur, namesMono_refl _⟩
  · rw [step_plain_eq s hterm] at h
    injection h with h
    subst h
    exact ⟨hb, hcur, namesMono_refl _⟩
  · exact absurd (h.symm.trans herr) (by simp)

theorem runCfg_cons_ok {s s' : DriveState} {c : Bril.Code} {l : List Bril.Code}
    (h : runCfg s (c :: l) = .ok s') :
    ∃ s₁, toCfgStep s c = .ok s₁ ∧ runCfg s₁ l = .ok s' := by
  have heq : runCfg s (c :: l) =
      match toCfgStep s c with
      | .error e => .error e
      | .ok s₁ => runCfg s₁ l := rfl
  rw [heq] at h
  split at h
  · exact absurd h (by simp)
  · rename_i s₁ hstep
    exact ⟨s₁, hstep, h⟩

theorem runCfg_append (s : DriveState) (p q : List Bril.Code) :
    runCfg s (p ++ q) =
      match runCfg s p with
      | .error e => .error e
      | .ok s₁ => runCfg s₁ q := by
  induction p generalizing s with
  | nil => rfl
  | cons c p ih =>
    show runCfg s (c :: (p ++ q)) = _
    have heq : ∀ t : List Bril.Code, runCfg s (c :: t) =
        match toCfgStep s c with
        | .error e => .error e
        | .ok s₁ => runCfg s₁ t := fun _ => rfl
    rw [heq, heq]
    cases hstep : toCfgStep s c with
    | error e => rfl
    | ok s₁ => exact ih s₁

theorem runCfg_DInv {l : List Bril.Code} {s s' : DriveState}
    (hb : BInv s.builder) (hcur : s.current < s.builder.cfg.graph.nodes.length)
    (h : runCfg s l = .ok s') :
    BInv s'.builder ∧ s'.current < s'.builder.cfg.graph.nodes.length ∧
    namesMono s.builder.cfg.graph s'.builder.cfg.graph := by
  induction l generalizing s with
  | nil =>
    have : s = s' := by
      have heq : runCfg s [] = Except.ok s := rfl
      rw [heq] at h
      injection h
    subst this
    exact ⟨hb, hcur, namesMono_refl _⟩
  | cons c rest ih =>
    obtain ⟨s₁, hstep, hrest⟩ := runCfg_cons_ok h
    obtain ⟨hb₁, hcur₁, hm₁⟩ := toCfgStep_DInv hb hcur hstep
    obtain ⟨hb₂, hcur₂, hm₂⟩ := ih hb₁ hcur₁ hrest
    exact ⟨hb₂, hcur₂, namesMono_trans hm₁ hm₂⟩

theorem initState_DInv (func : Bril.Function) :
    BInv (initState func).builder ∧
    (initState func).current < (initState func).builder.cfg.graph.nodes.length := by
  refine ⟨BInv_new func, ?_⟩
  show 0 < 2
  omega

/-! ## From the final builder to the returned Cfg -/

theorem build_nodes (b : CfgBuilder) : (b.build).graph.nodes = b.cfg.graph.nodes := by
  unfold CfgBuilder.build
  split <;> rfl

theorem build_entry (b : CfgBuilder) : (b.build).entry = b.cfg.entry := by
  unfold CfgBuilder.build
  split <;> rfl

theorem build_exit (b : CfgBuilder) : (b.build).exit = b.cfg.exit := by
  unfold CfgBuilder.build
  split <;> rfl

theorem build_args (b : CfgBuilder) : (b.build).args = b.cfg.args := by
  unfold CfgBuilder.build
  split <;> rfl

theorem build_edges_of_any (b : CfgBuilder)
    (h : b.cfg.graph.edges.any (fun e => e.src == b.cfg.entry) = true) :
    (b.build).graph.edges = b.cfg.graph.edges := by
  unfold CfgBuilder.build
  rw [if_pos h]

theorem build_edges_of_none (b : CfgBuilder)
    (h : b.cfg.graph.edges.any (fun e => e.src == b.cfg.entry) = false) :
    (b.build).graph.edges =
      b.cfg.graph.edges ++
        [{ src := b.cfg.entry, dst := b.cfg.exit, branch := { op := .jmp, pos := none } }] := by
  unfold CfgBuilder.build
  rw [if_neg (by simp [h])]

theorem to_cfg_ok_elim {func : Bril.Function} {cfg : Cfg} (h : to_cfg func = .ok cfg) :
    ∃ s b, runCfg (initState func) func.instrs = .ok s ∧
      s.builder.finish_block s.current s.block = .ok b ∧ cfg = b.build := by
  unfold to_cfg at h
  split at h
  · exact absurd h (by simp)
  · rename_i s hrun
    split at h
    · exact absurd h (by simp)
    · rename_i b hfin
      injection h with h
      exact ⟨s, b, hrun, hfin, h.symm⟩

/-- The final builder of a successful `to_cfg` run satisfies the structural
invariant, and the returned `Cfg` is its sealed graph. -/
theorem to_cfg_final_BInv {func : Bril.Function} {cfg : Cfg} (h : to_cfg func = .ok cfg) :
    ∃ b : CfgBuilder, BInv b ∧ cfg = b.build := by
  obtain ⟨s, b, hrun, hfin, hcfg⟩ := to_cfg_ok_elim h
  obtain ⟨hbinit, hcinit⟩ := initState_DInv func
  obtain ⟨hbs, -, -⟩ := runCfg_DInv hbinit hcinit hrun
  exact ⟨b, BInv_finish_block hbs hfin, hcfg⟩

theorem BInv_shape {b : CfgBuilder} (hb : BInv b) :
    ∃ n0 n1 rest, b.cfg.graph.nodes = n0 :: n1 :: rest ∧
      n0.name = BlockName.entry ∧ n1.name = BlockName.exit ∧
      ∀ n ∈ rest, ∃ l, n.name = BlockName.named l := by
  have hlen := hb.len2
  rcases hnodes : b.cfg.graph.nodes with _ | ⟨n0, _ | ⟨n1, rest⟩⟩
  · rw [hnodes] at hlen; simp at hlen
  · rw [hnodes] at hlen; simp at hlen
  · refine ⟨n0, n1, rest, rfl, ?_, ?_, ?_⟩
    · have := hb.name_entry
      rw [nodeName?_eq_node, hnodes] at this
      simpa using this
    · have := hb.name_exit
      rw [nodeName?_eq_node, hnodes] at this
      simpa using this
    · intro n hn
      obtain ⟨k, hk⟩ := List.mem_iff_getElem?.mp hn
      have hname : nodeName? b.cfg.graph (k + 2) = some n.name := by
        rw [nodeName?_eq_node, hnodes]
        simpa using congrArg (Option.map (·.name)) hk
      exact hb.named_ge2 (k + 2) n.name hname (by omega)

theorem build_nodeName? (b : CfgBuilder) (i : Nat) :
    nodeName? (b.build).graph i = nodeName? b.cfg.graph i := by
  simp [nodeName?, nodeNames, build_nodes]

/-! ## C7: single entry and exit -/

/-- C7: for every input function, the Cfg constructed by `to_cfg` contains
exactly one node named `BlockName.entry` and exactly one node named
`BlockName.exit`, and the `entry` and `exit` fields identify those nodes. -/
theorem entry_exit_unique {func : Bril.Function} {cfg : Cfg} (h : to_cfg func = .ok cfg) :
    cfg.graph.nodes.countP (fun n => n.name == BlockName.entry) = 1 ∧
    cfg.graph.nodes.countP (fun n => n.name == BlockName.exit) = 1 ∧
    nodeName? cfg.graph cfg.entry = some BlockName.entry ∧
    nodeName? cfg.graph cfg.exit = some BlockName.exit := by
  obtain ⟨b, hb, rfl⟩ := to_cfg_final_BInv h
  obtain ⟨n0, n1, rest, hnodes, he0, he1, hrest⟩ := BInv_shape hb
  have hr0 : rest.countP (fun n => n.name == BlockName.entry) = 0 := by
    rw [List.countP_eq_zero]
    intro a ha
    obtain ⟨l, hl⟩ := hrest a ha
    simp [hl]
  have hr1 : rest.countP (fun n => n.name == BlockName.exit) = 0 := by
    rw [List.countP_eq_zero]
    intro a ha
    obtain ⟨l, hl⟩ := hrest a ha
    simp [hl]
  refine ⟨?_, ?_, ?_, ?_⟩
  · rw [build_nodes, hnodes]
    simp [List.countP_cons, he0, he1, hr0]
  · rw [build_nodes, hnodes]
    simp [List.countP_cons, he0, he1, hr1]
  · rw [build_entry, build_nodeName?, hb.entry_eq]
    exact hb.name_entry
  · rw [build_exit, build_nodeName?, hb.exit_eq]
    exact hb.name_exit

def fC7 : Bril.Function := { name := "main", args := [], instrs := [] }

def cfgC7 : Cfg :=
  { args := []
    graph :=
      { nodes := [{ instrs := [], name := .entry, pos := none },
                  { instrs := [], name := .exit, pos := none }]
        edges := [{ src := 0, dst := 1, branch := { op := .jmp, pos := none } }] }
    entry := 0
    exit := 1 }

theorem entry_exit_unique_witness :
    to_cfg fC7 = Except.ok cfgC7 ∧
    (cfgC7.graph.nodes.countP (fun n => n.name == BlockName.entry) = 1 ∧
     cfgC7.graph.nodes.countP (fun n => n.name == BlockName.exit) = 1 ∧
     nodeName? cfgC7.graph cfgC7.entry = some BlockName.entry ∧
     nodeName? cfgC7.graph cfgC7.exit = some BlockName.exit) :=
  ⟨rfl, @entry_exit_unique fC7 cfgC7 rfl⟩

/-! ## C8: label resolution is stable -/

/-- C8: `get_index` is idempotent (a second resolution of the same label
returns the same node and leaves the builder unchanged), and consequently the
constructed Cfg never holds two distinct `named` nodes for one label. -/
theorem label_resolution_stable {func : Bril.Function} {cfg : Cfg}
    (h : to_cfg func = .ok cfg) :
    (∀ (b : CfgBuilder) (l : String), ((b.get_index l).2).get_index l = b.get_index l) ∧
    (∀ l i j, nodeName? cfg.graph i = some (BlockName.named l) →
      nodeName? cfg.graph j = some (BlockName.named l) → i = j) := by
  obtain ⟨b0, hb, rfl⟩ := to_cfg_final_BInv h
  constructor
  · intro b l
    cases hl : b.label_to_block.lookup l with
    | some i =>
      rw [get_index_of_lookup hl]
      exact get_index_of_lookup hl
    | none =>
      rw [get_index_of_fresh hl]
      exact get_index_of_lookup (by simp [List.lookup_cons])
  · intro l i j hi hj
    rw [build_nodeName?] at hi hj
    have h1 := hb.lm_complete i l hi
    have h2 := hb.lm_complete j l hj
    rw [h1] at h2
    injection h2 with h2

def fC8 : Bril.Function :=
  { name := "g", args := []
    instrs := [.instruction (.effect [] [] ["A"] .jump none), .label "A" none] }

def cfgC8 : Cfg :=
  { args := []
    graph :=
      { nodes := [{ instrs := [], name := .entry, pos := none },
                  { instrs := [], name := .exit, pos := none },
                  { instrs := [], name := .named "A", pos := none }]
        edges := [{ src := 0, dst := 2, branch := { op := .jmp, pos := none } }] }
    entry := 0
    exit := 1 }

theorem label_resolution_stable_witness :
    to_cfg fC8 = Except.ok cfgC8 ∧
    ((∀ (b : CfgBuilder) (l : String), ((b.get_index l).2).get_index l = b.get_index l) ∧
     (∀ l i j, nodeName? cfgC8.graph i = some (BlockName.named l) →
       nodeName? cfgC8.graph j = some (BlockName.named l) → i = j)) :=
  ⟨rfl, @label_resolution_stable fC8 cfgC8 rfl⟩

/-! ## Concrete inputs refuting the claims that fail on the code -/

def fC1x : Bril.Function :=
  { name := "c1", args := [], instrs := [.instruction (.constant "x" (.int 0) none)] }

/-- C1 counterexample: a function with no label and no control transfer has
zero return instructions, yet its Cfg holds exactly one edge into `Exit`
(the synthesized sealing edge), so the edge count does not equal the return
count. -/
theorem return_unification_cex :
    (to_cfg fC1x).map (fun c => (exitOps c).length) = Except.ok 1 ∧
    (retOpsOf fC1x.instrs).length = 0 :=
  ⟨rfl, rfl⟩

def fC2x : Bril.Function :=
  { name := "c2", args := [], instrs := [.instruction (.constant "w" (.int 2) none)] }

def cfgC2x : Cfg :=
  { args := []
    graph :=
      { nodes := [{ instrs := [.constant "w" (.int 2) none], name := .entry, pos := none },
                  { instrs := [], name := .exit, pos := none }]
        edges := [{ src := 0, dst := 1, branch := { op := .jmp, pos := none } }] }
    entry := 0
    exit := 1 }

/-- C2 counterexample: for a body holding one plain instruction, the Cfg has
exactly the two nodes `Entry` (index 0) and `Exit` (index 1); the plain
instruction sits in the `Entry` block itself, so no intervening
content-carrying block exists between them. -/
theorem empty_body_sealing_cex :
    to_cfg fC2x = Except.ok cfgC2x ∧
    cfgC2x.graph.nodes.length = 2 ∧ cfgC2x.entry = 0 ∧ cfgC2x.exit = 1 ∧
    instrsAt cfgC2x.graph 0 = some [.constant "w" (.int 2) none] ∧
    cfgC2x.graph.edges = [{ src := 0, dst := 1, branch := { op := .jmp, pos := none } }] :=
  ⟨rfl, rfl, rfl, rfl, rfl, rfl⟩

def fC4x : Bril.Function :=
  { name := "c4", args := []
    instrs := [.instruction (.effect [] [] [] .ret none),
               .instruction (.constant "v" (.int 1) none),
               .label "L" none] }

def cfgC4x : Cfg :=
  { args := []
    graph :=
      { nodes := [{ instrs := [.constant "v" (.int 1) none], name := .entry, pos := none },
                  { instrs := [], name := .exit, pos := none },
                  { instrs := [], name := .named "L", pos := none }]
        edges := [{ src := 0, dst := 1, branch := { op := .jmp, pos := none } }] }
    entry := 0
    exit := 1 }

/-- C4 counterexample: in `[ret; const; .L]` the item processed immediately
before the declaration of `L` is a plain instruction, yet the Cfg holds no
implicit `Jmp` edge into `L`'s node (node 2): the `had_branch` flag set by
the return is not cleared by the intervening plain instruction. -/
theorem fallthrough_insertion_cex :
    to_cfg fC4x = Except.ok cfgC4x ∧
    fC4x.instrs[1]? = some (.instruction (.constant "v" (.int 1) none)) ∧
    fC4x.instrs[2]? = some (.label "L" none) ∧
    Bril.Code.isPlain (.instruction (.constant "v" (.int 1) none)) = true ∧
    nodeName? cfgC4x.graph 2 = some (.named "L") ∧
    cfgC4x.graph.edges = [{ src := 0, dst := 1, branch := { op := .jmp, pos := none } }] :=
  ⟨rfl, rfl, rfl, rfl, rfl, rfl⟩

def fC5x : Bril.Function :=
  { name := "c5", args := []
    instrs := [.label "L" none,
               .instruction (.constant "v" (.int 1) none),
               .label "L" none] }

/-- C5 counterexample: a duplicate label declaration with a committed plain
instruction in between makes the final commit find a non-empty instruction
list, so the emptiness assertion of `finish_block` fires. -/
theorem single_commit_cex :
    to_cfg fC5x = Except.error CfgError.commitNonEmpty :=
  rfl

def fC6x : Bril.Function :=
  { name := "c6", args := []
    instrs := [.label "M" none,
               .instruction (.constant "u" (.int 3) none),
               .label "M" none] }

/-- C6 counterexample: this function contains no malformed control-transfer
shape, yet `to_cfg` aborts (on the block-recommit assertion caused by the
duplicate label), so abortion is not exactly characterized by malformed
shapes. -/
theorem abort_iff_malformed_cex :
    to_cfg fC6x = Except.error CfgError.commitNonEmpty ∧
    fC6x.instrs.any malformedShape = false :=
  ⟨rfl, rfl⟩

def fC9x : Bril.Function :=
  { name := "c9", args := []
    instrs := [.label "L" none,
               .instruction (.effect [] [] ["M"] .jump none),
               .label "L" none] }

def cfgC9x : Cfg :=
  { args := []
    graph :=
      { nodes := [{ instrs := [], name := .entry, pos := none },
                  { instrs := [], name := .exit, pos := none },
                  { instrs := [], name := .named "L", pos := none },
                  { instrs := [], name := .named "M", pos := none }]
        edges := [{ src := 0, dst := 2, branch := { op := .jmp, pos := none } },
                  { src := 2, dst := 3, branch := { op := .jmp, pos := none } }] }
    entry := 0
    exit := 1 }

/-- C9 counterexample: the stream ends right after a (duplicate) declaration
of `L` with nothing after it, yet `L`'s node has one outgoing edge (added
during its first stint as the current block). -/
theorem last_label_no_outgoing_cex :
    to_cfg fC9x = Except.ok cfgC9x ∧
    fC9x.instrs[2]? = some (.label "L" none) ∧
    nodeName? cfgC9x.graph 2 = some (.named "L") ∧
    (cfgC9x.graph.edges.filter (fun e => e.src == 2)).length = 1 :=
  ⟨rfl, rfl, rfl, rfl⟩

/-! ## Lookup and instruction-list bookkeeping for `get_index` -/

theorem get_index_lookup (b : CfgBuilder) (L L' : String) :
    ((b.get_index L).2).label_to_block.lookup L' =
      if L' = L then some (b.get_index L).1 else b.label_to_block.lookup L' := by
  cases hl : b.label_to_block.lookup L with
  | some i =>
    rw [get_index_of_lookup hl]
    by_cases he : L' = L
    · subst he
      simp [hl]
    · simp [he]
  | none =>
    rw [get_index_of_fresh hl]
    show List.lookup L' ((L, _) :: _) = _
    rw [List.lookup_cons]
    by_cases he : L' = L
    · subst he
      simp
    · have : (L' == L) = false := by simpa using he
      simp [this, he]

theorem get_index_instrsAt_fresh {b : CfgBuilder} {L : String}
    (h : b.label_to_block.lookup L = none) :
    instrsAt ((b.get_index L).2).cfg.graph (b.get_index L).1 = some [] := by
  rw [get_index_of_fresh h]
  show ((b.cfg.graph.nodes ++ [BasicBlock.empty (BlockName.named L)])[b.cfg.graph.nodes.length]?).map
      (·.instrs) = some []
  rw [List.getElem?_concat_length]
  rfl

theorem instrsAt_congr {g g' : Graph} (h : g'.nodes = g.nodes) (k : Nat) :
    instrsAt g' k = instrsAt g k := by
  simp [instrsAt, h]

theorem add_edge_instrsAt (b : CfgBuilder) (src dst : Nat) (br : Branch) (k : Nat) :
    instrsAt ((b.add_edge src dst br)).cfg.graph k = instrsAt b.cfg.graph k := rfl

theorem labelsOf_cons_label (L : String) (pos : Option Bril.Position) (l : List Bril.Code) :
    labelsOf (.label L pos :: l) = L :: labelsOf l := rfl

theorem labelsOf_cons_instruction (i : Bril.Instruction) (l : List Bril.Code) :
    labelsOf (.instruction i :: l) = labelsOf l := rfl

/-! ## The commit invariant: blocks are committed exactly once -/

/-- Every node interned for a label in `ls` still has an empty instruction
list and is not the current block. -/
def FreshOK (b : CfgBuilder) (cur : Nat) (ls : List String) : Prop :=
  ∀ L ∈ ls, ∀ i, b.label_to_block.lookup L = some i →
    i ≠ cur ∧ instrsAt b.cfg.graph i = some []

theorem FreshOK_get_index {b : CfgBuilder} {cur : Nat} {ls : List String} (L : String)
    (hcur : cur < b.cfg.graph.nodes.length) (h : FreshOK b cur ls) :
    FreshOK ((b.get_index L).2) cur ls := by
  intro L' hL' i hlk
  rw [get_index_lookup] at hlk
  by_cases he : L' = L
  · rw [if_pos he] at hlk
    injection hlk with hlk
    subst hlk
    cases hl : b.label_to_block.lookup L with
    | some i0 =>
      have h1 : b.get_index L = (i0, b) := get_index_of_lookup hl
      rw [h1]
      exact h L (he ▸ hL') i0 hl
    | none =>
      constructor
      · have h1 : (b.get_index L).1 = b.cfg.graph.nodes.length := by
          rw [get_index_of_fresh hl]
        rw [h1]
        omega
      · exact get_index_instrsAt_fresh hl
  · rw [if_neg he] at hlk
    obtain ⟨hne, hemp⟩ := h L' hL' i hlk
    refine ⟨hne, ?_⟩
    rw [get_index_instrsAt b L (instrsAt_lt hemp)]
    exact hemp

theorem FreshOK_add_edge {b : CfgBuilder} {cur : Nat} {ls : List String}
    (src dst : Nat) (br : Branch) (h : FreshOK b cur ls) :
    FreshOK (b.add_edge src dst br) cur ls := h

theorem FreshOK_finish_block {b b' : CfgBuilder} {cur : Nat} {ls : List String}
    {v : List Bril.Instruction} (h : FreshOK b cur ls)
    (hf : b.finish_block cur v = .ok b') : FreshOK b' cur ls := by
  obtain ⟨-, -, -, -, -, hlm, -, -, -, hoth⟩ := finish_block_ok_spec hf
  intro L hL i hlk
  rw [hlm] at hlk
  obtain ⟨hne, hemp⟩ := h L hL i hlk
  refine ⟨hne, ?_⟩
  rw [hoth i hne]
  exact hemp

theorem FreshOK_set_pos {b : CfgBuilder} {cur : Nat} {ls : List String}
    (k : Nat) (pos : Option Bril.Position) (h : FreshOK b cur ls) :
    FreshOK (b.set_pos k pos) cur ls := by
  obtain ⟨-, -, -, -, hlm, -, -, hall⟩ := set_pos_spec b k pos
  intro L hL i hlk
  rw [hlm] at hlk
  obtain ⟨hne, hemp⟩ := h L hL i hlk
  exact ⟨hne, by rw [hall i]; exact hemp⟩

/-- The driver-state invariant maintained over the remaining stream `l` of a
function whose label declarations are pairwise distinct. -/
structure CInv (s : DriveState) (l : List Bril.Code) : Prop where
  binv : BInv s.builder
  cur_lt : s.current < s.builder.cfg.graph.nodes.length
  cur_empty : instrsAt s.builder.cfg.graph s.current = some []
  fresh : FreshOK s.builder s.current (labelsOf l)
  nodup : (labelsOf l).Nodup

theorem toCfgStep_CInv_main {s : DriveState} {c : Bril.Code} {l : List Bril.Code}
    (hc : CInv s (c :: l)) :
    (malformedShape c = true ∧ ∃ e, toCfgStep s c = .error e ∧
      (e = .malformedBranch ∨ e = .malformedJump ∨ e = .malformedReturn)) ∨
    (∃ s', toCfgStep s c = .ok s' ∧ CInv s' l) := by
  rcases toCfgStep_shape s c with
    ⟨⟨L, pos, rfl⟩, -⟩ | ⟨⟨arg, funcs, tl, fl, pos, rfl⟩, -⟩ |
    ⟨⟨args, funcs, dest, pos, rfl⟩, -⟩ | ⟨⟨funcs, labels, pos, rfl⟩, -⟩ |
    ⟨⟨arg, funcs, labels, pos, rfl⟩, -⟩ | ⟨⟨i, rfl, hterm⟩, -⟩ | ⟨hm, e, herr, he3⟩
  · right
    obtain ⟨hbi1, hj2, hjlt, hjname, hjlk⟩ := get_index_spec L hc.binv
    have hcur1 : instrsAt ((s.builder.get_index L).2).cfg.graph s.current = some [] := by
      rw [get_index_instrsAt s.builder L hc.cur_lt]
      exact hc.cur_empty
    obtain ⟨b2, hf⟩ := finish_block_ok_of_empty s.block hcur1
    have hstep : toCfgStep s (.label L pos) =
        .ok { builder :=
                if !s.had_branch then
                  (b2.set_pos (s.builder.get_index L).1 pos).add_edge s.current
                    (s.builder.get_index L).1 { op := .jmp, pos := pos }
                else b2.set_pos (s.builder.get_index L).1 pos
              block := []
              current := (s.builder.get_index L).1
              had_branch := false } := by
      rw [step_label_eq, hf]
    refine ⟨_, hstep, ?_⟩
    obtain ⟨hbi', hclt', -⟩ := toCfgStep_DInv hc.binv hc.cur_lt hstep
    obtain ⟨-, -, -, -, -, hlm2, hlen2, hnames2, hset2, hoth2⟩ := finish_block_ok_spec hf
    obtain ⟨-, -, -, -, hlm3, hlen3, hnames3, hall3⟩ :=
      set_pos_spec b2 (s.builder.get_index L).1 pos
    have hn43 :
        (if !s.had_branch then
            (b2.set_pos (s.builder.get_index L).1 pos).add_edge s.current
              (s.builder.get_index L).1 { op := .jmp, pos := pos }
          else b2.set_pos (s.builder.get_index L).1 pos).cfg.graph.nodes =
          (b2.set_pos (s.builder.get_index L).1 pos).cfg.graph.nodes := by
      by_cases hbr : (!s.had_branch) = true
      · rw [if_pos hbr]
        rfl
      · rw [if_neg hbr]
    have hlm43 :
        (if !s.had_branch then
            (b2.set_pos (s.builder.get_index L).1 pos).add_edge s.current
              (s.builder.get_index L).1 { op := .jmp, pos := pos }
          else b2.set_pos (s.builder.get_index L).1 pos).label_to_block =
          (b2.set_pos (s.builder.get_index L).1 pos).label_to_block := by
      by_cases hbr : (!s.had_branch) = true
      · rw [if_pos hbr]
        rfl
      · rw [if_neg hbr]
    have hjfacts : (s.builder.get_index L).1 ≠ s.current ∧
        instrsAt ((s.builder.get_index L).2).cfg.graph (s.builder.get_index L).1 = some [] := by
      cases hl : s.builder.label_to_block.lookup L with
      | some i0 =>
        have h1 : s.builder.get_index L = (i0, s.builder) := get_index_of_lookup hl
        rw [h1]
        exact hc.fresh L (by rw [labelsOf_cons_label]; exact List.mem_cons_self _ _) i0 hl
      | none =>
        constructor
        · have h1 : (s.builder.get_index L).1 = s.builder.cfg.graph.nodes.length := by
            rw [get_index_of_fresh hl]
          rw [h1]
          have := hc.cur_lt
          omega
        · exact get_index_instrsAt_fresh hl
    refine ⟨hbi', hclt', ?_, ?_, ?_⟩
    · dsimp only
      rw [instrsAt_congr hn43, hall3, hoth2 _ hjfacts.1]
      exact hjfacts.2
    · dsimp only
      intro L' hL' i hlk
      have hLne : L' ≠ L := by
        intro he
        subst he
        have hnd := hc.nodup
        rw [labelsOf_cons_label] at hnd
        exact (List.nodup_cons.mp hnd).1 hL'
      have hlk' : s.builder.label_to_block.lookup L' = some i := by
        rw [hlm43, hlm3, hlm2, get_index_lookup, if_neg hLne] at hlk
        exact hlk
      obtain ⟨hne, hemp⟩ :=
        hc.fresh L' (by rw [labelsOf_cons_label]; exact List.mem_cons_of_mem _ hL') i hlk'
      constructor
      · intro hij
        subst hij
        have hlk2 : ((s.builder.get_index L).2).label_to_block.lookup L' =
            some (s.builder.get_index L).1 := by
          rw [get_index_lookup, if_neg hLne]
          exact hlk'
        obtain ⟨-, -, hiname⟩ := hbi1.lm_sound L' _ hlk2
        have hcontr := hiname.symm.trans hjname
        injection hcontr with hcontr
        injection hcontr with hcontr
        exact hLne hcontr
      · rw [instrsAt_congr hn43, hall3, hoth2 i hne,
          get_index_instrsAt s.builder L (instrsAt_lt hemp)]
        exact hemp
    · have hnd := hc.nodup
      rw [labelsOf_cons_label] at hnd
      exact (List.nodup_cons.mp hnd).2
  · right
    refine ⟨_, step_branch_eq s arg funcs tl fl pos, ?_⟩
    obtain ⟨hbi', hclt', -⟩ :=
      toCfgStep_DInv hc.binv hc.cur_lt (step_branch_eq s arg funcs tl fl pos)
    have hc1 : s.current < ((s.builder.get_index tl).2).cfg.graph.nodes.length :=
      Nat.lt_of_lt_of_le hc.cur_lt (get_index_namesMono s.builder tl).1
    have hfr := hc.fresh
    have hnd := hc.nodup
    rw [labelsOf_cons_instruction] at hfr hnd
    refine ⟨hbi', hclt', ?_, ?_, hnd⟩
    · dsimp only
      rw [add_edge_instrsAt, add_edge_instrsAt, get_index_instrsAt _ fl hc1,
        get_index_instrsAt _ tl hc.cur_lt]
      exact hc.cur_empty
    · exact FreshOK_add_edge _ _ _ (FreshOK_add_edge _ _ _
        (FreshOK_get_index fl hc1 (FreshOK_get_index tl hc.cur_lt hfr)))
  · right
    refine ⟨_, step_jump_eq s args funcs dest pos, ?_⟩
    obtain ⟨hbi', hclt', -⟩ :=
      toCfgStep_DInv hc.binv hc.cur_lt (step_jump_eq s args funcs dest pos)
    have hfr := hc.fresh
    have hnd := hc.nodup
    rw [labelsOf_cons_instruction] at hfr hnd
    refine ⟨hbi', hclt', ?_, ?_, hnd⟩
    · dsimp only
      rw [add_edge_instrsAt, get_index_instrsAt _ dest hc.cur_lt]
      exact hc.cur_empty
    · exact FreshOK_add_edge _ _ _ (FreshOK_get_index dest hc.cur_lt hfr)
  · right
    refine ⟨_, step_ret0_eq s funcs labels pos, ?_⟩
    obtain ⟨hbi', hclt', -⟩ :=
      toCfgStep_DInv hc.binv hc.cur_lt (step_ret0_eq s funcs labels pos)
    have hfr := hc.fresh
    have hnd := hc.nodup
    rw [labelsOf_cons_instruction] at hfr hnd
    exact ⟨hbi', hclt', hc.cur_empty, FreshOK_add_edge _ _ _ hfr, hnd⟩
  · right
    refine ⟨_, step_ret1_eq s arg funcs labels pos, ?_⟩
    obtain ⟨hbi', hclt', -⟩ :=
      toCfgStep_DInv hc.binv hc.cur_lt (step_ret1_eq s arg funcs labels pos)
    have hfr := hc.fresh
    have hnd := hc.nodup
    rw [labelsOf_cons_instruction] at hfr hnd
    exact ⟨hbi', hclt', hc.cur_empty, FreshOK_add_edge _ _ _ hfr, hnd⟩
  · right
    refine ⟨_, step_plain_eq s hterm, ?_⟩
    have hfr := hc.fresh
    have hnd := hc.nodup
    rw [labelsOf_cons_instruction] at hfr hnd
    exact ⟨hc.binv, hc.cur_lt, hc.cur_empty, hfr, hnd⟩
  · exact Or.inl ⟨hm, e, herr, he3⟩

theorem toCfgStep_ok_not_malformed {s s' : DriveState} {c : Bril.Code}
    (h : toCfgStep s c = .ok s') : malformedShape c = false := by
  rcases toCfgStep_shape s c with
    ⟨-, hm⟩ | ⟨-, hm⟩ | ⟨-, hm⟩ | ⟨-, hm⟩ | ⟨-, hm⟩ | ⟨-, hm⟩ | ⟨-, e, herr, -⟩
  exacts [hm, hm, hm, hm, hm, hm, absurd (h.symm.trans herr) (by simp)]

theorem runCfg_CInv {l : List Bril.Code} {s : DriveState} (hc : CInv s l) :
    (∃ e, runCfg s l = .error e ∧
      (e = .malformedBranch ∨ e = .malformedJump ∨ e = .malformedReturn) ∧
      l.any malformedShape = true) ∨
    (∃ s', runCfg s l = .ok s' ∧ CInv s' [] ∧ l.any malformedShape = false) := by
  induction l generalizing s with
  | nil => exact Or.inr ⟨s, rfl, hc, rfl⟩
  | cons c rest ih =>
    have heq : runCfg s (c :: rest) =
        match toCfgStep s c with
        | .error e => .error e
        | .ok s₁ => runCfg s₁ rest := rfl
    rcases toCfgStep_CInv_main hc with ⟨hm, e, herr, he3⟩ | ⟨s₁, hstep, hc₁⟩
    · left
      refine ⟨e, ?_, he3, by simp [List.any_cons, hm]⟩
      rw [heq, herr]
    · rcases ih hc₁ with ⟨e, herr2, he3, hany⟩ | ⟨s', hok, hcf, hany⟩
      · left
        refine ⟨e, ?_, he3, by simp [List.any_cons, hany]⟩
        rw [heq, hstep]
        exact herr2
      · right
        refine ⟨s', ?_, hcf, ?_⟩
        · rw [heq, hstep]
          exact hok
        · simp [List.any_cons, hany, toCfgStep_ok_not_malformed hstep]

theorem initState_CInv (func : Bril.Function) (hn : (labelsOf func.instrs).Nodup) :
    CInv (initState func) func.instrs := by
  refine ⟨(initState_DInv func).1, (initState_DInv func).2, rfl, ?_, hn⟩
  intro L hL i hlk
  simp [initState, CfgBuilder.new] at hlk

theorem to_cfg_eq_of_run_err {func : Bril.Function} {e : CfgError}
    (herr : runCfg (initState func) func.instrs = .error e) : to_cfg func = .error e := by
  unfold to_cfg
  rw [herr]

theorem to_cfg_eq_of_run_ok {func : Bril.Function} {s' : DriveState}
    (hok : runCfg (initState func) func.instrs = .ok s') :
    to_cfg func =
      match s'.builder.finish_block s'.current s'.block with
      | .error e => .error e
      | .ok b => .ok b.build := by
  unfold to_cfg
  rw [hok]

/-! ## C5 (amended): each block is committed exactly once -/

/-- C5 (amended): for every input function whose label declarations are
pairwise distinct, every `finish_block` call finds the target's instruction
list empty, so `to_cfg` can only abort with one of the three malformed-shape
errors — never with the commit (emptiness) assertion or the invalid-node
`unwrap`. -/
theorem single_commit {func : Bril.Function}
    (hn : (labelsOf func.instrs).Nodup) (e : CfgError)
    (h : to_cfg func = .error e) :
    e = .malformedBranch ∨ e = .malformedJump ∨ e = .malformedReturn := by
  rcases runCfg_CInv (initState_CInv func hn) with ⟨e0, herr, he3, -⟩ | ⟨s', hok, hcf, -⟩
  · have hv := to_cfg_eq_of_run_err herr
    rw [hv] at h
    injection h with h
    subst h
    exact he3
  · obtain ⟨b, hfin⟩ := finish_block_ok_of_empty s'.block hcf.cur_empty
    have hv : to_cfg func = .ok b.build := by
      rw [to_cfg_eq_of_run_ok hok, hfin]
    rw [hv] at h
    exact absurd h (by simp)

def fC5 : Bril.Function :=
  { name := "w5", args := []
    instrs := [.label "K" none, .instruction (.effect [] [] [] .jump none)] }

theorem single_commit_witness :
    (labelsOf fC5.instrs).Nodup ∧
    (CfgError.malformedJump = CfgError.malformedBranch ∨
     CfgError.malformedJump = CfgError.malformedJump ∨
     CfgError.malformedJump = CfgError.malformedReturn) :=
  ⟨by decide, @single_commit fC5 (by decide) CfgError.malformedJump rfl⟩

/-! ## C6 (amended): abortion is exactly a malformed shape -/

/-- C6 (amended): for every input function whose label declarations are
pairwise distinct, `to_cfg` aborts exactly when the stream contains a
malformed control-transfer shape (a conditional branch without exactly one
argument and two labels, a jump without exactly one label, or a return with
more than one argument). -/
theorem abort_iff_malformed {func : Bril.Function}
    (hn : (labelsOf func.instrs).Nodup) :
    (∃ e, to_cfg func = .error e) ↔ func.instrs.any malformedShape = true := by
  rcases runCfg_CInv (initState_CInv func hn) with ⟨e0, herr, he3, hany⟩ | ⟨s', hok, hcf, hany⟩
  · have hv := to_cfg_eq_of_run_err herr
    exact ⟨fun _ => hany, fun _ => ⟨e0, hv⟩⟩
  · obtain ⟨b, hfin⟩ := finish_block_ok_of_empty s'.block hcf.cur_empty
    have hv : to_cfg func = .ok b.build := by
      rw [to_cfg_eq_of_run_ok hok, hfin]
    constructor
    · rintro ⟨e, he⟩
      rw [hv] at he
      exact absurd he (by simp)
    · intro hcontra
      rw [hany] at hcontra
      exact absurd hcontra (by simp)

def fC6 : Bril.Function :=
  { name := "w6", args := []
    instrs := [.instruction (.effect ["a", "b"] [] ["T", "F"] .branch none)] }

theorem abort_iff_malformed_witness :
    (labelsOf fC6.instrs).Nodup ∧ (∃ e, to_cfg fC6 = Except.error e) :=
  ⟨by decide, (@abort_iff_malformed fC6 (by decide)).mpr rfl⟩

/-! ## C2 (amended): sealing of a body with no control transfer -/

theorem runCfg_plain {l : List Bril.Code} (hp : ∀ c ∈ l, c.isPlain = true)
    (s : DriveState) :
    runCfg s l = .ok { s with block := s.block ++ plainsOf l } := by
  induction l generalizing s with
  | nil =>
    show Except.ok s = _
    simp [plainsOf]
  | cons c rest ih =>
    have hc : c.isPlain = true := hp c (by simp)
    cases c with
    | label L pos => simp [Bril.Code.isPlain, Bril.Code.isLabel] at hc
    | instruction i =>
      have hterm : i.isTerm = false := by
        simp [Bril.Code.isPlain, Bril.Code.isLabel, Bril.Code.isTerm] at hc
        exact hc
      have heq : runCfg s (.instruction i :: rest) =
          match toCfgStep s (.instruction i) with
          | .error e => .error e
          | .ok s₁ => runCfg s₁ rest := rfl
      rw [heq, step_plain_eq s hterm]
      show runCfg { s with block := s.block ++ [i] } rest = _
      rw [ih (fun c hcm => hp c (by simp [hcm]))]
      simp [plainsOf, Bril.Code.inst?]

theorem to_cfg_all_plain {func : Bril.Function}
    (h : ∀ c ∈ func.instrs, c.isPlain = true) :
    to_cfg func =
      Except.ok
        { args := func.args
          graph :=
            { nodes := [{ instrs := plainsOf func.instrs, name := .entry, pos := none },
                        { instrs := [], name := .exit, pos := none }]
              edges := [{ src := 0, dst := 1, branch := { op := .jmp, pos := none } }] }
          entry := 0
          exit := 1 } := by
  unfold to_cfg
  rw [runCfg_plain h (initState func)]
  rfl

/-- C2 (amended): a function whose instruction stream contains no
branch/jump/return and no label yields a Cfg with exactly the `Entry` and
`Exit` nodes, connected by a single synthesized `Jmp` edge; the plain
instructions, if any, are held by the `Entry` block itself (there is no
separate intervening block). -/
theorem empty_body_sealing {func : Bril.Function}
    (h : ∀ c ∈ func.instrs, c.isPlain = true) :
    to_cfg func =
      Except.ok
        { args := func.args
          graph :=
            { nodes := [{ instrs := plainsOf func.instrs, name := .entry, pos := none },
                        { instrs := [], name := .exit, pos := none }]
              edges := [{ src := 0, dst := 1, branch := { op := .jmp, pos := none } }] }
          entry := 0
          exit := 1 } :=
  to_cfg_all_plain h

def fC2 : Bril.Function :=
  { name := "w2", args := []
    instrs := [.instruction (.constant "a" (.int 1) none),
               .instruction (.value ["a"] "b" [] "id" none)] }

theorem empty_body_sealing_witness :
    (∀ c ∈ fC2.instrs, c.isPlain = true) ∧
    to_cfg fC2 =
      Except.ok
        { args := []
          graph :=
            { nodes := [{ instrs := [.constant "a" (.int 1) none,
                                     .value ["a"] "b" [] "id" none],
                          name := .entry, pos := none },
                        { instrs := [], name := .exit, pos := none }]
              edges := [{ src := 0, dst := 1, branch := { op := .jmp, pos := none } }] }
          entry := 0
          exit := 1 } :=
  ⟨by decide, @empty_body_sealing fC2 (by decide)⟩

/-! ## C1 (amended): return unification -/

theorem retOpsOf_cons_label (L : String) (pos : Option Bril.Position) (l : List Bril.Code) :
    retOpsOf (.label L pos :: l) = retOpsOf l := rfl

theorem retOpsOf_cons_plain {i : Bril.Instruction} (h : i.isTerm = false)
    (l : List Bril.Code) : retOpsOf (.instruction i :: l) = retOpsOf l := by
  cases i with
  | constant => rfl
  | value => rfl
  | effect args funcs labels op pos =>
    cases op <;> first | rfl | simp [Bril.Instruction.isTerm] at h

theorem retOpsOf_plain {l : List Bril.Code} (h : ∀ c ∈ l, c.isPlain = true) :
    retOpsOf l = [] := by
  induction l with
  | nil => rfl
  | cons c rest ih =>
    have hc : c.isPlain = true := h c (by simp)
    cases c with
    | label L pos => simp [Bril.Code.isPlain, Bril.Code.isLabel] at hc
    | instruction i =>
      have hterm : i.isTerm = false := by
        simp [Bril.Code.isPlain, Bril.Code.isLabel, Bril.Code.isTerm] at hc
        exact hc
      rw [retOpsOf_cons_plain hterm]
      exact ih (fun c hcm => h c (by simp [hcm]))

/-- The operations of the edges into node 1 (the exit node), for a builder
graph. -/
def exitOpsB (b : CfgBuilder) : List BranchOp :=
  (b.cfg.graph.edges.filter fun e => e.dst == 1).map (·.branch.op)

theorem exitOpsB_add_edge_ne (b : CfgBuilder) {dst : Nat} (src : Nat) (br : Branch)
    (h : dst ≠ 1) : exitOpsB (b.add_edge src dst br) = exitOpsB b := by
  unfold exitOpsB CfgBuilder.add_edge
  simp [List.filter_append, List.filter_cons, h]

theorem exitOpsB_add_edge_exit (b : CfgBuilder) (src : Nat) (br : Branch) :
    exitOpsB (b.add_edge src 1 br) = exitOpsB b ++ [br.op] := by
  unfold exitOpsB CfgBuilder.add_edge
  rw [List.filter_append, List.map_append]
  rfl

theorem toCfgStep_exitOps {s s' : DriveState} {c : Bril.Code}
    (hb : BInv s.builder) (h : toCfgStep s c = .ok s') :
    exitOpsB s'.builder = exitOpsB s.builder ++ retOpsOf [c] := by
  rcases toCfgStep_shape s c with
    ⟨⟨L, pos, rfl⟩, -⟩ | ⟨⟨arg, funcs, tl, fl, pos, rfl⟩, -⟩ |
    ⟨⟨args, funcs, dest, pos, rfl⟩, -⟩ | ⟨⟨funcs, labels, pos, rfl⟩, -⟩ |
    ⟨⟨arg, funcs, labels, pos, rfl⟩, -⟩ | ⟨⟨i, rfl, hterm⟩, -⟩ | ⟨-, e, herr, -⟩
  · rw [step_label_eq] at h
    split at h
    · exact absurd h (by simp)
    · rename_i b2 hf
      injection h with h
      subst h
      obtain ⟨hbi1, hj2, -, -, -⟩ := get_index_spec L hb
      obtain ⟨-, -, -, -, hed2, -, -, -, -, -⟩ := finish_block_ok_spec hf
      obtain ⟨-, -, -, hed3, -, -, -, -⟩ := set_pos_spec b2 (s.builder.get_index L).1 pos
      have h3 : exitOpsB (b2.set_pos (s.builder.get_index L).1 pos) = exitOpsB s.builder := by
        unfold exitOpsB
        rw [hed3, hed2, get_index_edges]
      by_cases hbr : (!s.had_branch) = true
      · dsimp only
        rw [if_pos hbr, exitOpsB_add_edge_ne _ s.current _ (by omega), h3]
        simp [retOpsOf]
      · dsimp only
        rw [if_neg hbr, h3]
        simp [retOpsOf]
  · rw [step_branch_eq] at h
    injection h with h
    subst h
    obtain ⟨hbi1, hj2t, -, -, -⟩ := get_index_spec tl hb
    obtain ⟨hbi2, hj2f, -, -, -⟩ := get_index_spec fl hbi1
    dsimp only
    rw [exitOpsB_add_edge_ne _ s.current _ (by omega),
      exitOpsB_add_edge_ne _ s.current _ (by omega)]
    have : exitOpsB ((s.builder.get_index tl).2.get_index fl).2 = exitOpsB s.builder := by
      unfold exitOpsB
      rw [get_index_edges, get_index_edges]
    rw [this]
    simp [retOpsOf]
  · rw [step_jump_eq] at h
    injection h with h
    subst h
    obtain ⟨hbi1, hj2, -, -, -⟩ := get_index_spec dest hb
    dsimp only
    rw [exitOpsB_add_edge_ne _ s.current _ (by omega)]
    have : exitOpsB (s.builder.get_index dest).2 = exitOpsB s.builder := by
      unfold exitOpsB
      rw [get_index_edges]
    rw [this]
    simp [retOpsOf]
  · rw [step_ret0_eq] at h
    injection h with h
    subst h
    dsimp only
    rw [hb.exit_eq, exitOpsB_add_edge_exit]
    rfl
  · rw [step_ret1_eq] at h
    injection h with h
    subst h
    dsimp only
    rw [hb.exit_eq, exitOpsB_add_edge_exit]
    rfl
  · rw [step_plain_eq s hterm] at h
    injection h with h
    subst h
    dsimp only
    rw [retOpsOf_cons_plain hterm]
    simp [retOpsOf]
  · exact absurd (h.symm.trans herr) (by simp)

theorem runCfg_exitOps {l : List Bril.Code} {s s' : DriveState}
    (hb : BInv s.builder) (hcur : s.current < s.builder.cfg.graph.nodes.length)
    (h : runCfg s l = .ok s') :
    exitOpsB s'.builder = exitOpsB s.builder ++ retOpsOf l := by
  induction l generalizing s with
  | nil =>
    have heq : runCfg s [] = Except.ok s := rfl
    rw [heq] at h
    injection h with h
    subst h
    simp [retOpsOf]
  | cons c rest ih =>
    obtain ⟨s₁, hstep, hrest⟩ := runCfg_cons_ok h
    obtain ⟨hb₁, hcur₁, -⟩ := toCfgStep_DInv hb hcur hstep
    have h1 := toCfgStep_exitOps hb hstep
    have h2 := ih hb₁ hcur₁ hrest
    rw [h2, h1, List.append_assoc]
    have h4 : retOpsOf [c] ++ retOpsOf rest = retOpsOf (c :: rest) := by
      unfold retOpsOf
      rw [← List.filterMap_append]
      rfl
    rw [h4]

theorem exists_first_nonplain {l : List Bril.Code} (h : ¬ ∀ c ∈ l, c.isPlain = true) :
    ∃ a c b, l = a ++ c :: b ∧ (∀ x ∈ a, x.isPlain = true) ∧ c.isPlain = false := by
  induction l with
  | nil => exact absurd (fun c hc => absurd hc (List.not_mem_nil c)) h
  | cons c rest ih =>
    by_cases hc : c.isPlain = true
    · by_cases hrest : ∀ x ∈ rest, x.isPlain = true
      · refine absurd ?_ h
        intro x hx
        rcases List.mem_cons.mp hx with rfl | hx
        · exact hc
        · exact hrest x hx
      · obtain ⟨a, c0, b, he, ha, hc0⟩ := ih hrest
        refine ⟨c :: a, c0, b, by rw [he]; rfl, ?_, hc0⟩
        intro x hx
        rcases List.mem_cons.mp hx with rfl | hx
        · exact hc
        · exact ha x hx
    · exact ⟨[], c, rest, rfl, fun x hx => absurd hx (List.not_mem_nil x),
        by simpa using hc⟩

theorem toCfgStep_edges_mono {s s' : DriveState} {c : Bril.Code}
    (h : toCfgStep s c = .ok s') :
    ∃ new, s'.builder.cfg.graph.edges = s.builder.cfg.graph.edges ++ new ∧
      ∀ e ∈ new, e.src = s.current := by
  rcases toCfgStep_shape s c with
    ⟨⟨L, pos, rfl⟩, -⟩ | ⟨⟨arg, funcs, tl, fl, pos, rfl⟩, -⟩ |
    ⟨⟨args, funcs, dest, pos, rfl⟩, -⟩ | ⟨⟨funcs, labels, pos, rfl⟩, -⟩ |
    ⟨⟨arg, funcs, labels, pos, rfl⟩, -⟩ | ⟨⟨i, rfl, hterm⟩, -⟩ | ⟨-, e, herr, -⟩
  · rw [step_label_eq] at h
    split at h
    · exact absurd h (by simp)
    · rename_i b2 hf
      injection h with h
      subst h
      obtain ⟨-, -, -, -, hed2, -, -, -, -, -⟩ := finish_block_ok_spec hf
      obtain ⟨-, -, -, hed3, -, -, -, -⟩ := set_pos_spec b2 (s.builder.get_index L).1 pos
      have h3 : (b2.set_pos (s.builder.get_index L).1 pos).cfg.graph.edges =
          s.builder.cfg.graph.edges := by
        rw [hed3, hed2, get_index_edges]
      by_cases hbr : (!s.had_branch) = true
      · refine ⟨[{ src := s.current, dst := (s.builder.get_index L).1,
                   branch := { op := .jmp, pos := pos } }], ?_, by simp⟩
        dsimp only
        rw [if_pos hbr]
        show (b2.set_pos (s.builder.get_index L).1 pos).cfg.graph.edges ++ _ = _
        rw [h3]
      · refine ⟨[], ?_, by simp⟩
        dsimp only
        rw [if_neg hbr, h3, List.append_nil]
  · rw [step_branch_eq] at h
    injection h with h
    subst h
    refine ⟨[{ src := s.current, dst := (s.builder.get_index tl).1,
               branch := { op := .cond arg true, pos := pos } },
             { src := s.current, dst := ((s.builder.get_index tl).2.get_index fl).1,
               branch := { op := .cond arg false, pos := pos } }], ?_, by
      intro e he
      rcases List.mem_cons.mp he with rfl | he
      · rfl
      · rcases List.mem_cons.mp he with rfl | he
        · rfl
        · exact absurd he (List.not_mem_nil e)⟩
    dsimp only
    show (((s.builder.get_index tl).2.get_index fl).2.cfg.graph.edges ++ _) ++ _ = _
    rw [get_index_edges, get_index_edges, List.append_assoc]
    rfl
  · rw [step_jump_eq] at h
    injection h with h
    subst h
    refine ⟨[{ src := s.current, dst := (s.builder.get_index dest).1,
               branch := { op := .jmp, pos := pos } }], ?_, by simp⟩
    dsimp only
    show (s.builder.get_index dest).2.cfg.graph.edges ++ _ = _
    rw [get_index_edges]
  · rw [step_ret0_eq] at h
    injection h with h
    subst h
    exact ⟨[{ src := s.current, dst := s.builder.cfg.exit,
              branch := { op := .jmp, pos := pos } }], rfl, by simp⟩
  · rw [step_ret1_eq] at h
    injection h with h
    subst h
    exact ⟨[{ src := s.current, dst := s.builder.cfg.exit,
              branch := { op := .retVal arg, pos := pos } }], rfl, by simp⟩
  · rw [step_plain_eq s hterm] at h
    injection h with h
    subst h
    exact ⟨[], (List.append_nil _).symm, by simp⟩
  · exact absurd (h.symm.trans herr) (by simp)

theorem runCfg_edges_mono {l : List Bril.Code} {s s' : DriveState}
    (h : runCfg s l = .ok s') :
    ∃ new, s'.builder.cfg.graph.edges = s.builder.cfg.graph.edges ++ new := by
  induction l generalizing s with
  | nil =>
    have heq : runCfg s [] = Except.ok s := rfl
    rw [heq] at h
    injection h with h
    subst h
    exact ⟨[], (List.append_nil _).symm⟩
  | cons c rest ih =>
    obtain ⟨s₁, hstep, hrest⟩ := runCfg_cons_ok h
    obtain ⟨n1, h1, -⟩ := toCfgStep_edges_mono hstep
    obtain ⟨n2, h2⟩ := ih hrest
    exact ⟨n1 ++ n2, by rw [h2, h1, List.append_assoc]⟩

theorem toCfgStep_nonplain_entry_edge {s s' : DriveState} {c : Bril.Code}
    (hbr : s.had_branch = false) (hcur : s.current = 0)
    (hplain : c.isPlain = false) (h : toCfgStep s c = .ok s') :
    ∃ e ∈ s'.builder.cfg.graph.edges, e.src = 0 := by
  obtain ⟨new, hmono, -⟩ := toCfgStep_edges_mono h
  rcases toCfgStep_shape s c with
    ⟨⟨L, pos, rfl⟩, -⟩ | ⟨⟨arg, funcs, tl, fl, pos, rfl⟩, -⟩ |
    ⟨⟨args, funcs, dest, pos, rfl⟩, -⟩ | ⟨⟨funcs, labels, pos, rfl⟩, -⟩ |
    ⟨⟨arg, funcs, labels, pos, rfl⟩, -⟩ | ⟨⟨i, rfl, hterm⟩, -⟩ | ⟨-, e, herr, -⟩
  · rw [step_label_eq] at h
    split at h
    · exact absurd h (by simp)
    · rename_i b2 hf
      injection h with h
      subst h
      obtain ⟨-, -, -, -, hed2, -, -, -, -, -⟩ := finish_block_ok_spec hf
      obtain ⟨-, -, -, hed3, -, -, -, -⟩ := set_pos_spec b2 (s.builder.get_index L).1 pos
      have hcond : (!s.had_branch) = true := by rw [hbr]; rfl
      refine ⟨{ src := s.current, dst := (s.builder.get_index L).1,
                branch := { op := .jmp, pos := pos } }, ?_, hcur⟩
      dsimp only
      rw [if_pos hcond]
      show _ ∈ (b2.set_pos (s.builder.get_index L).1 pos).cfg.graph.edges ++ _
      simp
  · rw [step_branch_eq] at h
    injection h with h
    subst h
    refine ⟨{ src := s.current, dst := ((s.builder.get_index tl).2.get_index fl).1,
              branch := { op := .cond arg false, pos := pos } }, ?_, hcur⟩
    dsimp only
    show _ ∈ _ ++ _
    simp
  · rw [step_jump_eq] at h
    injection h with h
    subst h
    refine ⟨{ src := s.current, dst := (s.builder.get_index dest).1,
              branch := { op := .jmp, pos := pos } }, ?_, hcur⟩
    dsimp only
    show _ ∈ _ ++ _
    simp
  · rw [step_ret0_eq] at h
    injection h with h
    subst h
    refine ⟨{ src := s.current, dst := s.builder.cfg.exit,
              branch := { op := .jmp, pos := pos } }, ?_, hcur⟩
    show _ ∈ _ ++ _
    simp
  · rw [step_ret1_eq] at h
    injection h with h
    subst h
    refine ⟨{ src := s.current, dst := s.builder.cfg.exit,
              branch := { op := .retVal arg, pos := pos } }, ?_, hcur⟩
    show _ ∈ _ ++ _
    simp
  · rw [Bril.Code.isPlain, Bril.Code.isLabel] at hplain
    simp [Bril.Code.isTerm, hterm] at hplain
  · exact absurd (h.symm.trans herr) (by simp)

/-- C1 (amended): the operations of the edges terminating at `Exit` are
exactly the per-return operations (`jmp` for a bare return, `retVal arg` for
a value-carrying return) of the return instructions in stream order — except
for a function with no label and no branch/jump/return, where the single
synthesized sealing `Jmp` edge enters `Exit` although no return exists.  In
particular the edge count equals the return count whenever the body contains
any label or control transfer. -/
theorem return_unification {func : Bril.Function} {cfg : Cfg}
    (h : to_cfg func = .ok cfg) :
    exitOps cfg = retOpsOf func.instrs ++
      (if ∀ c ∈ func.instrs, c.isPlain = true then [BranchOp.jmp] else []) := by
  by_cases hall : ∀ c ∈ func.instrs, c.isPlain = true
  · rw [if_pos hall]
    have h2 := to_cfg_all_plain hall
    rw [h] at h2
    injection h2 with h2
    subst h2
    rw [retOpsOf_plain hall]
    rfl
  · rw [if_neg hall, List.append_nil]
    obtain ⟨s, b, hrun, hfin, rfl⟩ := to_cfg_ok_elim h
    obtain ⟨hbinit, hcinit⟩ := initState_DInv func
    obtain ⟨hbs, hcs, -⟩ := runCfg_DInv hbinit hcinit hrun
    have hb : BInv b := BInv_finish_block hbs hfin
    have hops : exitOpsB s.builder =
        exitOpsB (initState func).builder ++ retOpsOf func.instrs :=
      runCfg_exitOps hbinit hcinit hrun
    have hinit0 : exitOpsB (initState func).builder = [] := rfl
    rw [hinit0, List.nil_append] at hops
    obtain ⟨-, -, -, -, hedfin, -, -, -, -, -⟩ := finish_block_ok_spec hfin
    obtain ⟨a, c0, rest, hsplit, ha, hc0⟩ := exists_first_nonplain hall
    have hrun' := hrun
    rw [hsplit, runCfg_append] at hrun'
    split at hrun'
    · exact absurd hrun' (by simp)
    · rename_i s₁ hr1
      rw [runCfg_plain ha (initState func)] at hr1
      injection hr1 with hr1
      obtain ⟨s₂, hstep, hrest2⟩ := runCfg_cons_ok hrun'
      have hbr1 : s₁.had_branch = false := by rw [← hr1]; rfl
      have hcur1 : s₁.current = 0 := by rw [← hr1]; rfl
      obtain ⟨e0, he0mem, he0src⟩ := toCfgStep_nonplain_entry_edge hbr1 hcur1 hc0 hstep
      obtain ⟨new2, hmono2⟩ := runCfg_edges_mono hrest2
      have he0b : e0 ∈ b.cfg.graph.edges := by
        rw [hedfin, hmono2]
        exact List.mem_append_left _ he0mem
      have hany : b.cfg.graph.edges.any (fun e => e.src == b.cfg.entry) = true := by
        rw [List.any_eq_true]
        exact ⟨e0, he0b, by simp [hb.entry_eq, he0src]⟩
      have hedges : (b.build).graph.edges = b.cfg.graph.edges := build_edges_of_any b hany
      show exitOps (b.build) = retOpsOf func.instrs
      unfold exitOps
      rw [hedges, build_exit, hb.exit_eq]
      have hbs2 : exitOpsB b = exitOpsB s.builder := by
        unfold exitOpsB
        rw [hedfin]
      rw [← hops, ← hbs2]
      rfl

def fC1 : Bril.Function :=
  { name := "w1", args := []
    instrs := [.instruction (.effect ["x"] [] [] .ret none),
               .instruction (.effect [] [] [] .ret none)] }

def cfgC1 : Cfg :=
  { args := []
    graph :=
      { nodes := [{ instrs := [], name := .entry, pos := none },
                  { instrs := [], name := .exit, pos := none }]
        edges := [{ src := 0, dst := 1, branch := { op := .retVal "x", pos := none } },
                  { src := 0, dst := 1, branch := { op := .jmp, pos := none } }] }
    entry := 0
    exit := 1 }

theorem return_unification_witness :
    to_cfg fC1 = Except.ok cfgC1 ∧
    exitOps cfgC1 = retOpsOf fC1.instrs ++
      (if ∀ c ∈ fC1.instrs, c.isPlain = true then [BranchOp.jmp] else []) :=
  ⟨rfl, @return_unification fC1 cfgC1 rfl⟩

/-! ## C4 (amended): fallthrough insertion -/

/-- How one code item updates the `had_branch` flag: a label clears it, a
branch/jump/return sets it, a plain instruction leaves it unchanged. -/
def hadBranchUpd (b : Bool) (c : Bril.Code) : Bool :=
  if c.isLabel then false else if c.isTerm then true else b

theorem toCfgStep_had_branch {s s' : DriveState} {c : Bril.Code}
    (h : toCfgStep s c = .ok s') : s'.had_branch = hadBranchUpd s.had_branch c := by
  rcases toCfgStep_shape s c with
    ⟨⟨L, pos, rfl⟩, -⟩ | ⟨⟨arg, funcs, tl, fl, pos, rfl⟩, -⟩ |
    ⟨⟨args, funcs, dest, pos, rfl⟩, -⟩ | ⟨⟨funcs, labels, pos, rfl⟩, -⟩ |
    ⟨⟨arg, funcs, labels, pos, rfl⟩, -⟩ | ⟨⟨i, rfl, hterm⟩, -⟩ | ⟨-, e, herr, -⟩
  · rw [step_label_eq] at h
    split at h
    · exact absurd h (by simp)
    · rename_i b2 hf
      injection h with h
      subst h
      rfl
  · rw [step_branch_eq] at h
    injection h with h
    subst h
    rfl
  · rw [step_jump_eq] at h
    injection h with h
    subst h
    rfl
  · rw [step_ret0_eq] at h
    injection h with h
    subst h
    rfl
  · rw [step_ret1_eq] at h
    injection h with h
    subst h
    rfl
  · rw [step_plain_eq s hterm] at h
    injection h with h
    subst h
    show s.had_branch = hadBranchUpd s.had_branch (.instruction i)
    rw [hadBranchUpd]
    simp [Bril.Code.isLabel, Bril.Code.isTerm, hterm]
  · exact absurd (h.symm.trans herr) (by simp)

theorem runCfg_had_branch {l : List Bril.Code} {s s' : DriveState}
    (h : runCfg s l = .ok s') : s'.had_branch = l.foldl hadBranchUpd s.had_branch := by
  induction l generalizing s with
  | nil =>
    have heq : runCfg s [] = Except.ok s := rfl
    rw [heq] at h
    injection h with h
    subst h
    rfl
  | cons c rest ih =>
    obtain ⟨s₁, hstep, hrest⟩ := runCfg_cons_ok h
    rw [ih hrest, List.foldl_cons, toCfgStep_had_branch hstep]

theorem sinceLastLabel_snoc (p : List Bril.Code) (c : Bril.Code) :
    sinceLastLabel (p ++ [c]) =
      if c.isLabel = true then [] else sinceLastLabel p ++ [c] := by
  unfold sinceLastLabel
  rw [List.reverse_append]
  show List.reverse (List.takeWhile _ (c :: p.reverse)) = _
  rw [List.takeWhile_cons]
  by_cases hl : c.isLabel = true
  · rw [hl]
    simp
  · have hl' : c.isLabel = false := by simpa using hl
    rw [hl']
    simp [hl']

theorem foldl_hadBranchUpd (p : List Bril.Code) (b : Bool) :
    p.foldl hadBranchUpd b =
      ((sinceLastLabel p).any Bril.Code.isTerm || (b && !(p.any Bril.Code.isLabel))) := by
  induction p using List.reverseRecOn generalizing b with
  | nil => simp [sinceLastLabel]
  | append_singleton p c ih =>
    rw [List.foldl_append, List.foldl_cons, List.foldl_nil, sinceLastLabel_snoc]
    by_cases hl : c.isLabel = true
    · rw [if_pos hl]
      simp [hadBranchUpd, hl]
    · have hl' : c.isLabel = false := by simpa using hl
      rw [if_neg hl]
      by_cases ht : c.isTerm = true
      · simp [hadBranchUpd, hl', ht, ih]
      · have ht' : c.isTerm = false := by simpa using ht
        simp [hadBranchUpd, hl', ht', ih b]

/-- C4 (amended): when the driver reaches the declaration of label `L` after
prefix `p`, the implicit fallthrough `Jmp` edge from the block being filled
to `L`'s node is added iff the segment of `p` after its most recent label
declaration (all of `p` if it declares none) contains no branch, jump or
return instruction.  In particular a plain instruction between a terminator
and `L` does not re-enable the fallthrough. -/
theorem fallthrough_insertion {func : Bril.Function} {p rest : List Bril.Code}
    {L : String} {pos : Option Bril.Position} {s s' : DriveState}
    (hf : func.instrs = p ++ .label L pos :: rest)
    (hrun : runCfg (initState func) p = .ok s)
    (hstep : toCfgStep s (.label L pos) = .ok s') :
    if (sinceLastLabel p).any Bril.Code.isTerm then
      s'.builder.cfg.graph.edges = s.builder.cfg.graph.edges
    else
      s'.builder.cfg.graph.edges = s.builder.cfg.graph.edges ++
        [{ src := s.current, dst := (s.builder.get_index L).1,
           branch := { op := .jmp, pos := pos } }] ∧
      nodeName? s'.builder.cfg.graph (s.builder.get_index L).1 = some (.named L) := by
  obtain ⟨hbinit, hcinit⟩ := initState_DInv func
  obtain ⟨hbs, hcs, -⟩ := runCfg_DInv hbinit hcinit hrun
  have hhb : s.had_branch = (sinceLastLabel p).any Bril.Code.isTerm := by
    rw [runCfg_had_branch hrun, foldl_hadBranchUpd]
    have hinit : (initState func).had_branch = false := rfl
    rw [hinit]
    simp
  rw [step_label_eq] at hstep
  split at hstep
  · exact absurd hstep (by simp)
  · rename_i b2 hf2
    injection hstep with hstep
    subst hstep
    obtain ⟨hbi1, hj2, hjlt, hjname, -⟩ := get_index_spec L hbs
    obtain ⟨-, -, -, -, hed2, -, -, hnames2, -, -⟩ := finish_block_ok_spec hf2
    obtain ⟨-, -, -, hed3, -, -, hnames3, -⟩ := set_pos_spec b2 (s.builder.get_index L).1 pos
    have hedges3 : (b2.set_pos (s.builder.get_index L).1 pos).cfg.graph.edges =
        s.builder.cfg.graph.edges := by
      rw [hed3, hed2, get_index_edges]
    cases hterm : (sinceLastLabel p).any Bril.Code.isTerm with
    | true =>
      rw [if_pos rfl]
      have hbranch : (!s.had_branch) = false := by rw [hhb, hterm]; rfl
      dsimp only
      rw [if_neg (by rw [hbranch]; simp), hedges3]
    | false =>
      rw [if_neg (by simp)]
      have hbranch : (!s.had_branch) = true := by rw [hhb, hterm]; rfl
      constructor
      · dsimp only
        rw [if_pos hbranch]
        show (b2.set_pos (s.builder.get_index L).1 pos).cfg.graph.edges ++ _ = _
        rw [hedges3]
      · dsimp only
        rw [if_pos hbranch]
        show (nodeNames _)[(s.builder.get_index L).1]? = _
        have hnn :
            nodeNames ((b2.set_pos (s.builder.get_index L).1 pos).add_edge s.current
                (s.builder.get_index L).1 { op := .jmp, pos := pos }).cfg.graph =
              nodeNames ((s.builder.get_index L).2).cfg.graph := by
          show nodeNames (b2.set_pos (s.builder.get_index L).1 pos).cfg.graph = _
          rw [hnames3, hnames2]
        rw [hnn]
        exact hjname

def fC4 : Bril.Function :=
  { name := "w4", args := []
    instrs := [.instruction (.constant "k" (.int 7) none), .label "B" none] }

def sC4 : DriveState :=
  { builder := CfgBuilder.new fC4
    block := [.constant "k" (.int 7) none]
    current := 0
    had_branch := false }

def sC4resolved : DriveState :=
  { builder :=
      { cfg :=
          { args := []
            graph :=
              { nodes := [{ instrs := [.constant "k" (.int 7) none],
                            name := .entry, pos := none },
                          { instrs := [], name := .exit, pos := none },
                          { instrs := [], name := .named "B", pos := none }]
                edges := [{ src := 0, dst := 2, branch := { op := .jmp, pos := none } }] }
            entry := 0
            exit := 1 }
        label_to_block := [("B", 2)] }
    block := []
    current := 2
    had_branch := false }

theorem fallthrough_insertion_witness :
    runCfg (initState fC4) [.instruction (.constant "k" (.int 7) none)] = .ok sC4 ∧
    toCfgStep sC4 (.label "B" none) = .ok sC4resolved ∧
    (if (sinceLastLabel [.instruction (.constant "k" (.int 7) none)]).any Bril.Code.isTerm then
       sC4resolved.builder.cfg.graph.edges = sC4.builder.cfg.graph.edges
     else
       sC4resolved.builder.cfg.graph.edges = sC4.builder.cfg.graph.edges ++
         [{ src := sC4.current, dst := (sC4.builder.get_index "B").1,
            branch := { op := .jmp, pos := none } }] ∧
       nodeName? sC4resolved.builder.cfg.graph (sC4.builder.get_index "B").1 =
         some (.named "B")) :=
  ⟨rfl, rfl,
    @fallthrough_insertion fC4 [.instruction (.constant "k" (.int 7) none)] [] "B" none
      sC4 sC4resolved rfl rfl rfl⟩

/-! ## C9 (amended): the final label's node has no outgoing edges -/

/-- No edge leaves a node named `L`, and the current block is not named `L`. -/
structure AvoidsLabel (s : DriveState) (L : String) : Prop where
  edges : ∀ e ∈ s.builder.cfg.graph.edges, e.src < s.builder.cfg.graph.nodes.length ∧
    nodeName? s.builder.cfg.graph e.src ≠ some (BlockName.named L)
  cur : nodeName? s.builder.cfg.graph s.current ≠ some (BlockName.named L)

theorem toCfgStep_label_current_name {s s' : DriveState} {M : String}
    {pos : Option Bril.Position} (hb : BInv s.builder)
    (h : toCfgStep s (.label M pos) = .ok s') :
    nodeName? s'.builder.cfg.graph s'.current = some (BlockName.named M) := by
  rw [step_label_eq] at h
  split at h
  · exact absurd h (by simp)
  · rename_i b2 hf
    injection h with h
    subst h
    obtain ⟨-, -, -, hjname, -⟩ := get_index_spec M hb
    obtain ⟨-, -, -, -, -, -, -, hnames2, -, -⟩ := finish_block_ok_spec hf
    obtain ⟨-, -, -, -, -, -, hnames3, -⟩ := set_pos_spec b2 (s.builder.get_index M).1 pos
    dsimp only
    show (nodeNames _)[(s.builder.get_index M).1]? = _
    have hnn :
        nodeNames (if !s.had_branch then
            (b2.set_pos (s.builder.get_index M).1 pos).add_edge s.current
              (s.builder.get_index M).1 { op := .jmp, pos := pos }
          else b2.set_pos (s.builder.get_index M).1 pos).cfg.graph =
          nodeNames ((s.builder.get_index M).2).cfg.graph := by
      by_cases hbr : (!s.had_branch) = true
      · rw [if_pos hbr]
        show nodeNames (b2.set_pos (s.builder.get_index M).1 pos).cfg.graph = _
        rw [hnames3, hnames2]
      · rw [if_neg hbr, hnames3, hnames2]
    rw [hnn]
    exact hjname

theorem toCfgStep_nonlabel_current {s s' : DriveState} {c : Bril.Code}
    (hlab : c.isLabel = false) (h : toCfgStep s c = .ok s') : s'.current = s.current := by
  rcases toCfgStep_shape s c with
    ⟨⟨L, pos, rfl⟩, -⟩ | ⟨⟨arg, funcs, tl, fl, pos, rfl⟩, -⟩ |
    ⟨⟨args, funcs, dest, pos, rfl⟩, -⟩ | ⟨⟨funcs, labels, pos, rfl⟩, -⟩ |
    ⟨⟨arg, funcs, labels, pos, rfl⟩, -⟩ | ⟨⟨i, rfl, hterm⟩, -⟩ | ⟨-, e, herr, -⟩
  · simp [Bril.Code.isLabel] at hlab
  · rw [step_branch_eq] at h
    injection h with h
    subst h
    rfl
  · rw [step_jump_eq] at h
    injection h with h
    subst h
    rfl
  · rw [step_ret0_eq] at h
    injection h with h
    subst h
    rfl
  · rw [step_ret1_eq] at h
    injection h with h
    subst h
    rfl
  · rw [step_plain_eq s hterm] at h
    injection h with h
    subst h
    rfl
  · exact absurd (h.symm.trans herr) (by simp)

theorem toCfgStep_avoids_edges {s s' : DriveState} {c : Bril.Code} {L : String}
    (hb : BInv s.builder) (hcur : s.current < s.builder.cfg.graph.nodes.length)
    (hav : AvoidsLabel s L) (h : toCfgStep s c = .ok s') :
    ∀ e ∈ s'.builder.cfg.graph.edges, e.src < s'.builder.cfg.graph.nodes.length ∧
      nodeName? s'.builder.cfg.graph e.src ≠ some (BlockName.named L) := by
  obtain ⟨new, hmono, hsrc⟩ := toCfgStep_edges_mono h
  obtain ⟨-, -, hnm⟩ := toCfgStep_DInv hb hcur h
  intro e he
  rw [hmono] at he
  rcases List.mem_append.mp he with he | he
  · obtain ⟨hlt, hname⟩ := hav.edges e he
    refine ⟨Nat.lt_of_lt_of_le hlt hnm.1, ?_⟩
    rw [hnm.2 e.src hlt]
    exact hname
  · have hesrc := hsrc e he
    rw [hesrc]
    refine ⟨Nat.lt_of_lt_of_le hcur hnm.1, ?_⟩
    rw [hnm.2 s.current hcur]
    exact hav.cur

theorem toCfgStep_avoids {s s' : DriveState} {c : Bril.Code} {L : String}
    (hb : BInv s.builder) (hcur : s.current < s.builder.cfg.graph.nodes.length)
    (hav : AvoidsLabel s L) (hne : ∀ pos', c ≠ .label L pos')
    (h : toCfgStep s c = .ok s') : AvoidsLabel s' L := by
  refine ⟨toCfgStep_avoids_edges hb hcur hav h, ?_⟩
  cases hlab : c.isLabel with
  | true =>
    cases c with
    | instruction i => simp [Bril.Code.isLabel] at hlab
    | label M pos' =>
      have hML : M ≠ L := by
        intro hml
        subst hml
        exact hne pos' rfl
      rw [toCfgStep_label_current_name hb h]
      intro hcontr
      injection hcontr with hcontr
      injection hcontr with hcontr
      exact hML hcontr
  | false =>
    obtain ⟨-, -, hnm⟩ := toCfgStep_DInv hb hcur h
    rw [toCfgStep_nonlabel_current hlab h, hnm.2 s.current hcur]
    exact hav.cur

theorem runCfg_avoids {l : List Bril.Code} {s s' : DriveState} {L : String}
    (hb : BInv s.builder) (hcur : s.current < s.builder.cfg.graph.nodes.length)
    (hav : AvoidsLabel s L) (hne : ∀ c ∈ l, ∀ pos', c ≠ .label L pos')
    (h : runCfg s l = .ok s') : AvoidsLabel s' L := by
  induction l generalizing s with
  | nil =>
    have heq : runCfg s [] = Except.ok s := rfl
    rw [heq] at h
    injection h with h
    subst h
    exact hav
  | cons c rest ih =>
    obtain ⟨s₁, hstep, hrest⟩ := runCfg_cons_ok h
    obtain ⟨hb₁, hcur₁, -⟩ := toCfgStep_DInv hb hcur hstep
    exact ih hb₁ hcur₁
      (toCfgStep_avoids hb hcur hav (hne c (by simp)) hstep)
      (fun c hc pos' => hne c (by simp [hc]) pos') hrest

/-- C9 (amended): if the instruction stream ends after a declaration of
label `L` followed only by plain instructions, and `L` is not declared
anywhere earlier, then no edge of the returned Cfg leaves `L`'s node: the
sealing `Jmp` edge is synthesized only for the `Entry` node. -/
theorem last_label_no_outgoing {func : Bril.Function} {p ds : List Bril.Code}
    {L : String} {pos : Option Bril.Position} {cfg : Cfg}
    (hf : func.instrs = p ++ .label L pos :: ds)
    (hds : ∀ c ∈ ds, c.isPlain = true)
    (hnotp : ∀ pos' : Option Bril.Position, Bril.Code.label L pos' ∉ p)
    (h : to_cfg func = .ok cfg) :
    ∀ e ∈ cfg.graph.edges, nodeName? cfg.graph e.src ≠ some (BlockName.named L) := by
  obtain ⟨s, b, hrun, hfin, rfl⟩ := to_cfg_ok_elim h
  obtain ⟨hbinit, hcinit⟩ := initState_DInv func
  rw [hf, runCfg_append] at hrun
  split at hrun
  · exact absurd hrun (by simp)
  · rename_i s₁ hr1
    obtain ⟨hb₁, hcur₁, -⟩ := runCfg_DInv hbinit hcinit hr1
    have hav0 : AvoidsLabel (initState func) L := by
      constructor
      · intro e he
        exact absurd he (List.not_mem_nil e)
      · have h0 : nodeName? (initState func).builder.cfg.graph (initState func).current =
            some BlockName.entry := rfl
        rw [h0]
        simp
    have hav₁ : AvoidsLabel s₁ L :=
      runCfg_avoids hbinit hcinit hav0
        (fun c hc pos' hceq => hnotp pos' (hceq ▸ hc)) hr1
    obtain ⟨s₂, hstep, hds2⟩ := runCfg_cons_ok hrun
    rw [runCfg_plain hds s₂] at hds2
    injection hds2 with hds2
    have hbs : s.builder = s₂.builder := by rw [← hds2]
    have hedge₂ := toCfgStep_avoids_edges hb₁ hcur₁ hav₁ hstep
    obtain ⟨hb₂, hcur₂, -⟩ := toCfgStep_DInv hb₁ hcur₁ hstep
    have hbsB : BInv s.builder := by rw [hbs]; exact hb₂
    have hbB : BInv b := BInv_finish_block hbsB hfin
    obtain ⟨-, -, -, -, hed, -, hlen, hnames, -, -⟩ := finish_block_ok_spec hfin
    have hnameb : ∀ k, nodeName? b.cfg.graph k = nodeName? s₂.builder.cfg.graph k := by
      intro k
      show (nodeNames _)[k]? = (nodeNames _)[k]?
      rw [hnames, hbs]
    have hmain : ∀ e ∈ b.cfg.graph.edges,
        nodeName? b.cfg.graph e.src ≠ some (BlockName.named L) := by
      intro e he
      rw [hed, hbs] at he
      obtain ⟨hlt, hname⟩ := hedge₂ e he
      rw [hnameb]
      exact hname
    intro e he
    rw [build_nodeName?]
    by_cases hany : b.cfg.graph.edges.any (fun e => e.src == b.cfg.entry) = true
    · rw [build_edges_of_any b hany] at he
      exact hmain e he
    · have hany' : b.cfg.graph.edges.any (fun e => e.src == b.cfg.entry) = false := by
        simpa using hany
      rw [build_edges_of_none b hany'] at he
      rcases List.mem_append.mp he with he | he
      · exact hmain e he
      · have heq : e = { src := b.cfg.entry, dst := b.cfg.exit,
                         branch := { op := .jmp, pos := none } } := by
          simpa using he
        rw [heq]
        show nodeName? b.cfg.graph b.cfg.entry ≠ _
        rw [hbB.entry_eq, hbB.name_entry]
        simp

def fC9 : Bril.Function :=
  { name := "w9", args := []
    instrs := [.instruction (.effect [] [] ["Z"] .jump none), .label "Z" none] }

def cfgC9 : Cfg :=
  { args := []
    graph :=
      { nodes := [{ instrs := [], name := .entry, pos := none },
                  { instrs := [], name := .exit, pos := none },
                  { instrs := [], name := .named "Z", pos := none }]
        edges := [{ src := 0, dst := 2, branch := { op := .jmp, pos := none } }] }
    entry := 0
    exit := 1 }

theorem last_label_no_outgoing_witness :
    to_cfg fC9 = Except.ok cfgC9 ∧
    ∀ e ∈ cfgC9.graph.edges, nodeName? cfgC9.graph e.src ≠ some (BlockName.named "Z") :=
  ⟨rfl,
    @last_label_no_outgoing fC9 [.instruction (.effect [] [] ["Z"] .jump none)] [] "Z" none
      cfgC9 rfl (fun c hc => absurd hc (List.not_mem_nil c))
      (fun pos' hmem => by simp at hmem) rfl⟩

/-! ## C3: conditional edge pairing -/

theorem namesMono_pointwise {g g' : Graph} (hm : namesMono g g') :
    ∀ (i : Nat) (x : BlockName), (g.nodes.map (·.name))[i]? = some x →
      (g'.nodes.map (·.name))[i]? = some x := by
  intro i x hx
  exact namesMono_name hm hx

theorem condPairsMatch_mono {ns ns' : List BasicBlock} {es : List Edge}
    {bs : List (String × String × String)}
    (hname : ∀ (i : Nat) (x : BlockName),
      (ns.map (·.name))[i]? = some x → (ns'.map (·.name))[i]? = some x)
    (h : condPairsMatch ns es bs) : condPairsMatch ns' es bs := by
  induction bs generalizing es with
  | nil =>
    cases es with
    | nil => trivial
    | cons e1 tail => simp [condPairsMatch] at h
  | cons bhead btail ih =>
    rcases bhead with ⟨a, tl, fl⟩
    cases es with
    | nil => simp [condPairsMatch] at h
    | cons e1 tail =>
      cases tail with
      | nil => simp [condPairsMatch] at h
      | cons e2 es' =>
        obtain ⟨h1, h2, h3, h4, h5, h6⟩ := h
        exact ⟨h1, h2, h3, hname _ _ h4, hname _ _ h5, ih h6⟩

theorem condPairsMatch_append {ns : List BasicBlock} {es : List Edge}
    {bs : List (String × String × String)} {e1 e2 : Edge} {a tl fl : String}
    (h : condPairsMatch ns es bs)
    (h1 : e1.src = e2.src) (h2 : e1.branch.op = .cond a true)
    (h3 : e2.branch.op = .cond a false)
    (h4 : (ns.map (·.name))[e1.dst]? = some (.named tl))
    (h5 : (ns.map (·.name))[e2.dst]? = some (.named fl)) :
    condPairsMatch ns (es ++ [e1, e2]) (bs ++ [(a, tl, fl)]) := by
  induction bs generalizing es with
  | nil =>
    cases es with
    | nil => exact ⟨h1, h2, h3, h4, h5, trivial⟩
    | cons f1 tail => simp [condPairsMatch] at h
  | cons bhead btail ih =>
    rcases bhead with ⟨b, btl, bfl⟩
    cases es with
    | nil => simp [condPairsMatch] at h
    | cons f1 tail =>
      cases tail with
      | nil => simp [condPairsMatch] at h
      | cons f2 es' =>
        obtain ⟨g1, g2, g3, g4, g5, g6⟩ := h
        exact ⟨g1, g2, g3, g4, g5, ih g6⟩

theorem condEdges_append (es new : List Edge) :
    condEdges (es ++ new) = condEdges es ++ condEdges new :=
  List.filter_append es new

theorem branchSpecsOf_cons (c : Bril.Code) (l : List Bril.Code) :
    branchSpecsOf (c :: l) = branchSpecsOf [c] ++ branchSpecsOf l := by
  unfold branchSpecsOf
  rw [← List.filterMap_append]
  rfl

theorem condEdges_singleton_jmp (src dst : Nat) (pos : Option Bril.Position) :
    condEdges [{ src := src, dst := dst, branch := { op := .jmp, pos := pos } }] = [] := rfl

theorem condEdges_singleton_ret (src dst : Nat) (arg : String) (pos : Option Bril.Position) :
    condEdges [{ src := src, dst := dst, branch := { op := .retVal arg, pos := pos } }] = [] :=
  rfl

theorem toCfgStep_condPairs {s s' : DriveState} {c : Bril.Code}
    {bs : List (String × String × String)}
    (hb : BInv s.builder) (hcur : s.current < s.builder.cfg.graph.nodes.length)
    (h : toCfgStep s c = .ok s')
    (hcp : condPairsMatch s.builder.cfg.graph.nodes
      (condEdges s.builder.cfg.graph.edges) bs) :
    condPairsMatch s'.builder.cfg.graph.nodes (condEdges s'.builder.cfg.graph.edges)
      (bs ++ branchSpecsOf [c]) := by
  obtain ⟨-, -, hnm⟩ := toCfgStep_DInv hb hcur h
  have hweak := condPairsMatch_mono (namesMono_pointwise hnm) hcp
  rcases toCfgStep_shape s c with
    ⟨⟨L, pos, rfl⟩, -⟩ | ⟨⟨arg, funcs, tl, fl, pos, rfl⟩, -⟩ |
    ⟨⟨args, funcs, dest, pos, rfl⟩, -⟩ | ⟨⟨funcs, labels, pos, rfl⟩, -⟩ |
    ⟨⟨arg, funcs, labels, pos, rfl⟩, -⟩ | ⟨⟨i, rfl, hterm⟩, -⟩ | ⟨-, e, herr, -⟩
  · obtain ⟨new, hmono, -⟩ := toCfgStep_edges_mono h
    rw [step_label_eq] at h
    split at h
    · exact absurd h (by simp)
    · rename_i b2 hf
      injection h with h
      subst h
      obtain ⟨-, -, -, -, hed2, -, -, -, -, -⟩ := finish_block_ok_spec hf
      obtain ⟨-, -, -, hed3, -, -, -, -⟩ := set_pos_spec b2 (s.builder.get_index L).1 pos
      have hedges3 : (b2.set_pos (s.builder.get_index L).1 pos).cfg.graph.edges =
          s.builder.cfg.graph.edges := by
        rw [hed3, hed2, get_index_edges]
      show condPairsMatch _ _ (bs ++ [])
      rw [List.append_nil]
      by_cases hbr : (!s.had_branch) = true
      · dsimp only at hweak ⊢
        rw [if_pos hbr] at hweak ⊢
        show condPairsMatch _
          (condEdges ((b2.set_pos (s.builder.get_index L).1 pos).cfg.graph.edges ++ _)) _
        rw [condEdges_append, hedges3, condEdges_singleton_jmp, List.append_nil]
        exact hweak
      · dsimp only at hweak ⊢
        rw [if_neg hbr] at hweak ⊢
        show condPairsMatch _
          (condEdges (b2.set_pos (s.builder.get_index L).1 pos).cfg.graph.edges) _
        rw [hedges3]
        exact hweak
  · rw [step_branch_eq] at h
    injection h with h
    subst h
    obtain ⟨hbi1, -, -, hnamet, -⟩ := get_index_spec tl hb
    obtain ⟨hbi2, -, -, hnamef, -⟩ := get_index_spec fl hbi1
    have hmono2 := get_index_namesMono (s.builder.get_index tl).2 fl
    dsimp only at hweak ⊢
    have hedges :
        ((((s.builder.get_index tl).2.get_index fl).2.add_edge s.current
              (s.builder.get_index tl).1 { op := .cond arg true, pos := pos }).add_edge
            s.current ((s.builder.get_index tl).2.get_index fl).1
            { op := .cond arg false, pos := pos }).cfg.graph.edges =
          s.builder.cfg.graph.edges ++
            [{ src := s.current, dst := (s.builder.get_index tl).1,
               branch := { op := .cond arg true, pos := pos } },
             { src := s.current, dst := ((s.builder.get_index tl).2.get_index fl).1,
               branch := { op := .cond arg false, pos := pos } }] := by
      show (((s.builder.get_index tl).2.get_index fl).2.cfg.graph.edges ++ _) ++ _ = _
      rw [get_index_edges, get_index_edges, List.append_assoc]
      rfl
    rw [hedges, condEdges_append]
    have hcondpair : condEdges
        [{ src := s.current, dst := (s.builder.get_index tl).1,
           branch := { op := .cond arg true, pos := pos } },
         { src := s.current, dst := ((s.builder.get_index tl).2.get_index fl).1,
           branch := { op := .cond arg false, pos := pos } }] =
        [{ src := s.current, dst := (s.builder.get_index tl).1,
           branch := { op := .cond arg true, pos := pos } },
         { src := s.current, dst := ((s.builder.get_index tl).2.get_index fl).1,
           branch := { op := .cond arg false, pos := pos } }] := rfl
    rw [hcondpair]
    refine condPairsMatch_append hweak rfl rfl rfl ?_ ?_
    · show ((((s.builder.get_index tl).2.get_index fl).2.cfg.graph.nodes.map
        (·.name))[(s.builder.get_index tl).1]? = _)
      exact namesMono_name hmono2 hnamet
    · show ((((s.builder.get_index tl).2.get_index fl).2.cfg.graph.nodes.map
        (·.name))[((s.builder.get_index tl).2.get_index fl).1]? = _)
      exact hnamef
  · rw [step_jump_eq] at h
    injection h with h
    subst h
    dsimp only at hweak ⊢
    show condPairsMatch _
      (condEdges ((s.builder.get_index dest).2.cfg.graph.edges ++ _)) (bs ++ [])
    rw [condEdges_append, get_index_edges, condEdges_singleton_jmp, List.append_nil,
      List.append_nil]
    exact hweak
  · rw [step_ret0_eq] at h
    injection h with h
    subst h
    dsimp only at hweak ⊢
    show condPairsMatch _ (condEdges (s.builder.cfg.graph.edges ++ _)) (bs ++ [])
    rw [condEdges_append, condEdges_singleton_jmp, List.append_nil, List.append_nil]
    exact hweak
  · rw [step_ret1_eq] at h
    injection h with h
    subst h
    dsimp only at hweak ⊢
    show condPairsMatch _ (condEdges (s.builder.cfg.graph.edges ++ _)) (bs ++ [])
    rw [condEdges_append, condEdges_singleton_ret, List.append_nil, List.append_nil]
    exact hweak
  · rw [step_plain_eq s hterm] at h
    injection h with h
    subst h
    dsimp only at hweak ⊢
    have hspec : branchSpecsOf [Bril.Code.instruction i] = [] := by
      cases i with
      | constant => rfl
      | value => rfl
      | effect args funcs labels op pos =>
        cases op <;> first | rfl | simp [Bril.Instruction.isTerm] at hterm
    rw [hspec, List.append_nil]
    exact hweak
  · exact absurd (h.symm.trans herr) (by simp)

theorem runCfg_condPairs {l : List Bril.Code} {s s' : DriveState}
    {bs : List (String × String × String)}
    (hb : BInv s.builder) (hcur : s.current < s.builder.cfg.graph.nodes.length)
    (h : runCfg s l = .ok s')
    (hcp : condPairsMatch s.builder.cfg.graph.nodes
      (condEdges s.builder.cfg.graph.edges) bs) :
    condPairsMatch s'.builder.cfg.graph.nodes (condEdges s'.builder.cfg.graph.edges)
      (bs ++ branchSpecsOf l) := by
  induction l generalizing s bs with
  | nil =>
    have heq : runCfg s [] = Except.ok s := rfl
    rw [heq] at h
    injection h with h
    subst h
    show condPairsMatch _ _ (bs ++ [])
    rw [List.append_nil]
    exact hcp
  | cons c rest ih =>
    obtain ⟨s₁, hstep, hrest⟩ := runCfg_cons_ok h
    obtain ⟨hb₁, hcur₁, -⟩ := toCfgStep_DInv hb hcur hstep
    have h1 := toCfgStep_condPairs hb hcur hstep hcp
    have h2 := ih hb₁ hcur₁ hrest h1
    rw [branchSpecsOf_cons c rest, ← List.append_assoc]
    exact h2

/-- C3: every conditional branch instruction of the source produces exactly
two consecutive conditional edges of the constructed Cfg, leaving one common
source node, guarded by the instruction's argument, with `val := true`
pointing to the node of the first label and `val := false` pointing to the
node of the second label; the conditional edges of the Cfg are exactly these
pairs, in stream order. -/
theorem cond_edge_pairing {func : Bril.Function} {cfg : Cfg}
    (h : to_cfg func = .ok cfg) :
    condPairsMatch cfg.graph.nodes (condEdges cfg.graph.edges)
      (branchSpecsOf func.instrs) := by
  obtain ⟨s, b, hrun, hfin, rfl⟩ := to_cfg_ok_elim h
  obtain ⟨hbinit, hcinit⟩ := initState_DInv func
  have h0 : condPairsMatch (initState func).builder.cfg.graph.nodes
      (condEdges (initState func).builder.cfg.graph.edges) [] := trivial
  have h1 := runCfg_condPairs hbinit hcinit hrun h0
  rw [List.nil_append] at h1
  obtain ⟨-, -, -, -, hed, -, hlen, hnames, -, -⟩ := finish_block_ok_spec hfin
  have h2 : condPairsMatch b.cfg.graph.nodes (condEdges b.cfg.graph.edges)
      (branchSpecsOf func.instrs) := by
    rw [hed]
    refine condPairsMatch_mono ?_ h1
    intro i x hx
    show (nodeNames b.cfg.graph)[i]? = some x
    rw [hnames]
    exact hx
  by_cases hany : b.cfg.graph.edges.any (fun e => e.src == b.cfg.entry) = true
  · rw [build_nodes, build_edges_of_any b hany]
    exact h2
  · rw [build_nodes, build_edges_of_none b (by simpa using hany), condEdges_append,
      condEdges_singleton_jmp, List.append_nil]
    exact h2

def fC3 : Bril.Function :=
  { name := "w3", args := []
    instrs := [.instruction (.effect ["c"] [] ["T", "F"] .branch none)] }

def cfgC3 : Cfg :=
  { args := []
    graph :=
      { nodes := [{ instrs := [], name := .entry, pos := none },
                  { instrs := [], name := .exit, pos := none },
                  { instrs := [], name := .named "T", pos := none },
                  { instrs := [], name := .named "F", pos := none }]
        edges := [{ src := 0, dst := 2, branch := { op := .cond "c" true, pos := none } },
                  { src := 0, dst := 3, branch := { op := .cond "c" false, pos := none } }] }
    entry := 0
    exit := 1 }

theorem cond_edge_pairing_witness :
    to_cfg fC3 = Except.ok cfgC3 ∧
    condPairsMatch cfgC3.graph.nodes (condEdges cfgC3.graph.edges)
      (branchSpecsOf fC3.instrs) :=
  ⟨rfl, @cond_edge_pairing fC3 cfgC3 rfl⟩

/-! ## C10: dead instructions stay in the terminated block -/

theorem toCfgStep_term {s st : DriveState} {t : Bril.Code}
    (ht : t.isTerm = true) (h : toCfgStep s t = .ok st) :
    st.current = s.current ∧ st.block = s.block := by
  rcases toCfgStep_shape s t with
    ⟨⟨L, pos, rfl⟩, -⟩ | ⟨⟨arg, funcs, tl, fl, pos, rfl⟩, -⟩ |
    ⟨⟨args, funcs, dest, pos, rfl⟩, -⟩ | ⟨⟨funcs, labels, pos, rfl⟩, -⟩ |
    ⟨⟨arg, funcs, labels, pos, rfl⟩, -⟩ | ⟨⟨i, rfl, hterm⟩, -⟩ | ⟨-, e, herr, -⟩
  · simp [Bril.Code.isTerm] at ht
  · rw [step_branch_eq] at h
    injection h with h
    subst h
    exact ⟨rfl, rfl⟩
  · rw [step_jump_eq] at h
    injection h with h
    subst h
    exact ⟨rfl, rfl⟩
  · rw [step_ret0_eq] at h
    injection h with h
    subst h
    exact ⟨rfl, rfl⟩
  · rw [step_ret1_eq] at h
    injection h with h
    subst h
    exact ⟨rfl, rfl⟩
  · rw [show (Bril.Code.instruction i).isTerm = i.isTerm from rfl, hterm] at ht
    exact absurd ht (by simp)
  · exact absurd (h.symm.trans herr) (by simp)

theorem toCfgStep_label_commit {s s' : DriveState} {L : String}
    {pos : Option Bril.Position} (h : toCfgStep s (.label L pos) = .ok s') :
    instrsAt s'.builder.cfg.graph s.current = some s.block := by
  rw [step_label_eq] at h
  split at h
  · exact absurd h (by simp)
  · rename_i b2 hf
    injection h with h
    subst h
    obtain ⟨-, -, -, -, -, -, -, -, hset2, -⟩ := finish_block_ok_spec hf
    obtain ⟨-, -, -, -, -, -, -, hall3⟩ := set_pos_spec b2 (s.builder.get_index L).1 pos
    have hn43 :
        (if !s.had_branch then
            (b2.set_pos (s.builder.get_index L).1 pos).add_edge s.current
              (s.builder.get_index L).1 { op := .jmp, pos := pos }
          else b2.set_pos (s.builder.get_index L).1 pos).cfg.graph.nodes =
          (b2.set_pos (s.builder.get_index L).1 pos).cfg.graph.nodes := by
      by_cases hbr : (!s.had_branch) = true
      · rw [if_pos hbr]
        rfl
      · rw [if_neg hbr]
    dsimp only
    rw [instrsAt_congr hn43, hall3]
    exact hset2

theorem finish_block_instrs_persist {b b' : CfgBuilder} {i : Nat}
    {v : List Bril.Instruction} {k : Nat} {w : List Bril.Instruction}
    (h : b.finish_block i v = .ok b') (hk : instrsAt b.cfg.graph k = some w)
    (hw : w ≠ []) : instrsAt b'.cfg.graph k = some w := by
  obtain ⟨hemp, -, -, -, -, -, -, -, -, hoth⟩ := finish_block_ok_spec h
  by_cases hik : k = i
  · subst hik
    rw [hk] at hemp
    injection hemp with hemp
    exact absurd hemp hw
  · rw [hoth k hik]
    exact hk

theorem toCfgStep_instrs_persist {s s' : DriveState} {c : Bril.Code}
    {k : Nat} {w : List Bril.Instruction} (h : toCfgStep s c = .ok s')
    (hk : instrsAt s.builder.cfg.graph k = some w) (hw : w ≠ []) :
    instrsAt s'.builder.cfg.graph k = some w := by
  have hklt : k < s.builder.cfg.graph.nodes.length := instrsAt_lt hk
  rcases toCfgStep_shape s c with
    ⟨⟨L, pos, rfl⟩, -⟩ | ⟨⟨arg, funcs, tl, fl, pos, rfl⟩, -⟩ |
    ⟨⟨args, funcs, dest, pos, rfl⟩, -⟩ | ⟨⟨funcs, labels, pos, rfl⟩, -⟩ |
    ⟨⟨arg, funcs, labels, pos, rfl⟩, -⟩ | ⟨⟨i, rfl, hterm⟩, -⟩ | ⟨-, e, herr, -⟩
  · rw [step_label_eq] at h
    split at h
    · exact absurd h (by simp)
    · rename_i b2 hf
      injection h with h
      subst h
      have hk1 : instrsAt ((s.builder.get_index L).2).cfg.graph k = some w := by
        rw [get_index_instrsAt s.builder L hklt]
        exact hk
      have hk2 : instrsAt b2.cfg.graph k = some w :=
        finish_block_instrs_persist hf hk1 hw
      obtain ⟨-, -, -, -, -, -, -, hall3⟩ := set_pos_spec b2 (s.builder.get_index L).1 pos
      have hn43 :
          (if !s.had_branch then
              (b2.set_pos (s.builder.get_index L).1 pos).add_edge s.current
                (s.builder.get_index L).1 { op := .jmp, pos := pos }
            else b2.set_pos (s.builder.get_index L).1 pos).cfg.graph.nodes =
            (b2.set_pos (s.builder.get_index L).1 pos).cfg.graph.nodes := by
        by_cases hbr : (!s.had_branch) = true
        · rw [if_pos hbr]
          rfl
        · rw [if_neg hbr]
      dsimp only
      rw [instrsAt_congr hn43, hall3]
      exact hk2
  · rw [step_branch_eq] at h
    injection h with h
    subst h
    have hklt2 : k < ((s.builder.get_index tl).2).cfg.graph.nodes.length :=
      Nat.lt_of_lt_of_le hklt (get_index_namesMono s.builder tl).1
    dsimp only
    rw [add_edge_instrsAt, add_edge_instrsAt, get_index_instrsAt _ fl hklt2,
      get_index_instrsAt _ tl hklt]
    exact hk
  · rw [step_jump_eq] at h
    injection h with h
    subst h
    dsimp only
    rw [add_edge_instrsAt, get_index_instrsAt _ dest hklt]
    exact hk
  · rw [step_ret0_eq] at h
    injection h with h
    subst h
    exact hk
  · rw [step_ret1_eq] at h
    injection h with h
    subst h
    exact hk
  · rw [step_plain_eq s hterm] at h
    injection h with h
    subst h
    exact hk
  · exact absurd (h.symm.trans herr) (by simp)

theorem runCfg_instrs_persist {l : List Bril.Code} {s s' : DriveState}
    {k : Nat} {w : List Bril.Instruction} (h : runCfg s l = .ok s')
    (hk : instrsAt s.builder.cfg.graph k = some w) (hw : w ≠ []) :
    instrsAt s'.builder.cfg.graph k = some w := by
  induction l generalizing s with
  | nil =>
    have heq : runCfg s [] = Except.ok s := rfl
    rw [heq] at h
    injection h with h
    subst h
    exact hk
  | cons c rest ih =>
    obtain ⟨s₁, hstep, hrest⟩ := runCfg_cons_ok h
    exact ih hrest (toCfgStep_instrs_persist hstep hk hw)

theorem plainsOf_ne_nil {ds : List Bril.Code} (hds : ∀ c ∈ ds, c.isPlain = true)
    (hne : ds ≠ []) : plainsOf ds ≠ [] := by
  cases ds with
  | nil => exact absurd rfl hne
  | cons c rest =>
    have hc : c.isPlain = true := hds c (by simp)
    cases c with
    | label L pos => simp [Bril.Code.isPlain, Bril.Code.isLabel] at hc
    | instruction i =>
      show i :: plainsOf rest ≠ []
      simp

/-- C10: plain instructions occurring after a branch/jump/return but before
the next label are appended to the pending buffer of the already-terminated
current block (the terminator does not flush the buffer or move the cursor),
so in the returned Cfg those dead instructions sit in the very block the
terminator's edges leave. -/
theorem dead_code_same_block {func : Bril.Function} {p ds rest : List Bril.Code}
    {t : Bril.Code} {s : DriveState} {cfg : Cfg}
    (hf : func.instrs = p ++ t :: (ds ++ rest))
    (ht : t.isTerm = true)
    (hds : ∀ c ∈ ds, c.isPlain = true) (hdsne : ds ≠ [])
    (hrest : rest = [] ∨ ∃ L pos rest', rest = Bril.Code.label L pos :: rest')
    (hp : runCfg (initState func) p = .ok s)
    (hok : to_cfg func = .ok cfg) :
    (∃ st, toCfgStep s t = .ok st ∧ st.current = s.current ∧ st.block = s.block ∧
      ∀ e ∈ st.builder.cfg.graph.edges.drop s.builder.cfg.graph.edges.length,
        e.src = s.current) ∧
    instrsAt cfg.graph s.current = some (s.block ++ plainsOf ds) := by
  obtain ⟨send, b, hrun, hfin, rfl⟩ := to_cfg_ok_elim hok
  rw [hf, runCfg_append] at hrun
  split at hrun
  · exact absurd hrun (by simp)
  · rename_i s₁ hr1
    rw [hp] at hr1
    injection hr1 with hr1
    subst hr1
    obtain ⟨st, hstep, hrest2⟩ := runCfg_cons_ok hrun
    obtain ⟨hcur_st, hblock_st⟩ := toCfgStep_term ht hstep
    obtain ⟨new, hmono, hsrc⟩ := toCfgStep_edges_mono hstep
    have hdrop : st.builder.cfg.graph.edges.drop s.builder.cfg.graph.edges.length = new := by
      rw [hmono]
      exact List.drop_left _ _
    refine ⟨⟨st, hstep, hcur_st, hblock_st, ?_⟩, ?_⟩
    · intro e he
      rw [hdrop] at he
      exact hsrc e he
    · rw [runCfg_append] at hrest2
      split at hrest2
      · exact absurd hrest2 (by simp)
      · rename_i sd hrd
        rw [runCfg_plain hds st] at hrd
        injection hrd with hrd
        have hsdblock : sd.block = s.block ++ plainsOf ds := by
          rw [← hrd]
          dsimp only
          rw [hblock_st]
        have hsdcur : sd.current = s.current := by
          rw [← hrd]
          dsimp only
          rw [hcur_st]
        have hwne : s.block ++ plainsOf ds ≠ [] := by
          intro hcontr
          rcases List.append_eq_nil.mp hcontr with ⟨-, h2⟩
          exact plainsOf_ne_nil hds hdsne h2
        rcases hrest with hre | ⟨L, pos, rest', hre⟩
        · subst hre
          have heq : runCfg sd ([] : List Bril.Code) = Except.ok sd := rfl
          rw [heq] at hrest2
          injection hrest2 with hrest2
          subst hrest2
          obtain ⟨-, -, -, -, -, -, -, -, hset, -⟩ := finish_block_ok_spec hfin
          rw [instrsAt_congr (build_nodes b), ← hsdcur, hset, hsdblock]
        · subst hre
          obtain ⟨slab, hsteplab, hrest'⟩ := runCfg_cons_ok hrest2
          have hcommit : instrsAt slab.builder.cfg.graph sd.current = some sd.block :=
            toCfgStep_label_commit hsteplab
          rw [hsdblock] at hcommit
          have hpersist := runCfg_instrs_persist hrest' hcommit hwne
          have hpersist2 := finish_block_instrs_persist hfin hpersist hwne
          rw [instrsAt_congr (build_nodes b), ← hsdcur]
          exact hpersist2

def fC10 : Bril.Function :=
  { name := "wX", args := []
    instrs := [.instruction (.effect [] [] [] .ret none),
               .instruction (.constant "d" (.int 9) none)] }

def cfgC10 : Cfg :=
  { args := []
    graph :=
      { nodes := [{ instrs := [.constant "d" (.int 9) none], name := .entry, pos := none },
                  { instrs := [], name := .exit, pos := none }]
        edges := [{ src := 0, dst := 1, branch := { op := .jmp, pos := none } }] }
    entry := 0
    exit := 1 }

theorem dead_code_same_block_witness :
    (∃ st, toCfgStep (initState fC10) (.instruction (.effect [] [] [] .ret none)) = .ok st ∧
      st.current = (initState fC10).current ∧ st.block = (initState fC10).block ∧
      ∀ e ∈ st.builder.cfg.graph.edges.drop
          (initState fC10).builder.cfg.graph.edges.length,
        e.src = (initState fC10).current) ∧
    instrsAt cfgC10.graph (initState fC10).current =
      some ((initState fC10).block ++
        plainsOf [.instruction (.constant "d" (.int 9) none)]) :=
  @dead_code_same_block fC10 [] [.instruction (.constant "d" (.int 9) none)] []
    (.instruction (.effect [] [] [] .ret none)) (initState fC10) cfgC10
    rfl rfl (by decide) (by decide) (Or.inl rfl) rfl rfl
